import Mathlib

/-!
Verification of the streaming EPS compressor in `epscompress.c`
(repository zprime/matlabfrag).

The development shallowly embeds the C source into Lean:

* machine integers become `ℕ` (unsigned) or `ℤ` (the C `int` fields that can
  hold the sentinel `-1`), with `% 2 ^ 32` written explicitly wherever the C
  code relies on `unsigned int` wrap-around;
* the output file `fout` becomes the list `out` of written bytes inside
  `IO_State`, and `pushes` is a ghost observation field recording each
  `(code, bitwidth)` pair handed to `asciistreamout` (the C function receives
  the width through `z->BitSize`); it lets theorems speak about the emitted
  code sequence without changing any computed value;
* the C arrays `Index` and `Dictionary` become total functions `ℕ → ℕ`;
* `char` is modelled as an unsigned byte (values `0..255`).  This is the only
  reading under which the C program is well defined for bytes `≥ 128`
  (with a signed `char` the expression `z->Index[CHILD][z->CurrentIndex]`
  would index the array with a negative subscript);
* the unbounded `while(1)` dictionary walk of `LZW` is embedded with an
  explicit fuel argument; the top-level entry uses fuel `TABLESIZE`, and the
  tree invariants proved below show this fuel is never exhausted on states
  the program can reach.
-/

/-! ### Constants of `epscompress.c` -/

def TABLESIZE : ℕ := 4096
def CHILD : ℕ := 0
def LEFT : ℕ := 1
def RIGHT : ℕ := 2
def BITMAX : ℕ := 12
def BITMIN : ℕ := 9
def CLEARTABLE : ℕ := 256
def ENDOFDATA : ℕ := 257
def FIRSTFREE : ℕ := 258
def OUTPUTWIDTH : ℕ := 75
def DSCGRACE : ℕ := 10

/-- The divisor table `{ 85^4, 85^3, 85^2, 85, 1 }` used by the ASCII85
formatter. -/
def divisors : List ℕ := [85 * 85 * 85 * 85, 85 * 85 * 85, 85 * 85, 85, 1]

/-! ### State records -/

/-- Embedding of the C struct `LZW_State`. -/
structure LZW_State where
  Index : ℕ → ℕ → ℕ
  Dictionary : ℕ → ℕ
  CurrentChar : ℕ
  CurrentIndex : ℤ
  NextIndex : ℕ
  MaxIndex : ℕ
  BitSize : ℕ

/-- Embedding of the C struct `IO_State`.  `out` is the byte stream written
to `fout`; `pushes` is the ghost trace of `asciistreamout` calls. -/
structure IO_State where
  Storage : ℕ
  ColumnWidth : ℕ
  StorageIndex : ℕ
  out : List ℕ
  pushes : List (ℕ × ℕ)

/-- `LZW_State_Init`: every field of the struct is overwritten, so the
embedding is a constant state. -/
def LZW_State_Init : LZW_State where
  Index := fun _ _ => 0
  Dictionary := fun _ => 0
  CurrentChar := 0
  CurrentIndex := -1
  NextIndex := FIRSTFREE
  MaxIndex := 2 ^ BITMIN
  BitSize := BITMIN

/-- `IO_State_Init`: resets `Storage`, `ColumnWidth` and `StorageIndex`;
the file pointers (modelled by `out` and the ghost `pushes`) are untouched. -/
def IO_State_Init (x : IO_State) : IO_State :=
  { x with Storage := 0, ColumnWidth := 0, StorageIndex := 0 }

/-- A fresh `IO_State` with empty output, as at the start of a session. -/
def zeroIOState : IO_State where
  Storage := 0
  ColumnWidth := 0
  StorageIndex := 0
  out := []
  pushes := []

/-- Pointwise update of the two-dimensional `Index` array. -/
def updIdx (f : ℕ → ℕ → ℕ) (k X v : ℕ) : ℕ → ℕ → ℕ :=
  fun k' X' => if k' = k ∧ X' = X then v else f k' X'

/-- Pointwise update of the `Dictionary` array. -/
def updD (f : ℕ → ℕ) (i v : ℕ) : ℕ → ℕ :=
  fun j => if j = i then v else f j

/-! ### ASCII85 packer (`asciiprv_put`, `asciistreamout`,
`asciistreamout_cleanup`) -/

/-- `asciiprv_put`: write one character and wrap at `OUTPUTWIDTH` columns. -/
def asciiprv_put (x : ℕ) (y : IO_State) : IO_State :=
  let y1 : IO_State := { y with out := y.out ++ [x], ColumnWidth := y.ColumnWidth + 1 }
  if y1.ColumnWidth = OUTPUTWIDTH then
    { y1 with out := y1.out ++ [10], ColumnWidth := 0 }
  else y1

/-- Write a list of characters through `asciiprv_put`. -/
def putChars (cs : List ℕ) (y : IO_State) : IO_State :=
  cs.foldl (fun acc c => asciiprv_put c acc) y

/-- The five base-85 characters of a 32-bit group `v`. -/
def a85Chars (v : ℕ) : List ℕ :=
  (List.range 5).map (fun ii => v / divisors.getD ii 1 % 85 + 33)

/-- `asciistreamout`: push `z->BitSize` bits of `x` into the 32-bit
accumulator, emitting a full group as `z` or five base-85 characters.
The first `let` only records the ghost trace. -/
def asciistreamout (x : ℕ) (y : IO_State) (z : LZW_State) : IO_State :=
  let y0 : IO_State := { y with pushes := y.pushes ++ [(x, z.BitSize)] }
  let y1 : IO_State :=
    if z.BitSize + y0.StorageIndex ≤ 32 then
      { y0 with Storage := y0.Storage ||| (x <<< (32 - z.BitSize - y0.StorageIndex)) % 2 ^ 32 }
    else
      { y0 with Storage := y0.Storage ||| x >>> (z.BitSize + y0.StorageIndex - 32) }
  let y2 : IO_State := { y1 with StorageIndex := y1.StorageIndex + z.BitSize }
  if 32 ≤ y2.StorageIndex then
    let y3 : IO_State :=
      if y2.Storage = 0 then asciiprv_put 122 y2
      else putChars (a85Chars y2.Storage) y2
    let y4 : IO_State := { y3 with StorageIndex := y3.StorageIndex - 32 }
    if y4.StorageIndex = 0 then { y4 with Storage := 0 }
    else { y4 with Storage := (x <<< (32 - y4.StorageIndex)) % 2 ^ 32 }
  else y2

/-- The characters produced by the cleanup drain: the truncated
five-character template. -/
def cleanupChars (y : IO_State) : List ℕ :=
  (List.range (5 - (32 - y.StorageIndex) / 8)).map
    (fun ii => y.Storage / divisors.getD ii 1 % 85 + 33)

/-- `asciistreamout_cleanup`: drain the accumulator (truncated template,
as in the C `for` loop over `numBytes`), reset the packer fields, then
write the EOD marker `~>` (bytes 126, 62) with `fprintf`, which bypasses
the column counter. -/
def asciistreamout_cleanup (y : IO_State) : IO_State :=
  let y2 : IO_State := putChars (cleanupChars y) y
  { y2 with StorageIndex := 0, Storage := 0, ColumnWidth := 0, out := y2.out ++ [126, 62] }

/-! ### LZW coder (`NotInDictionary`, `LZW`) -/

/-- `NotInDictionary`: install a new dictionary entry, emit the current
prefix code, adopt `CurrentChar` as the new prefix, and bump the bit size
or reset the table when `NextIndex` reaches `MaxIndex`.  The C call
`asciistreamout( z->CurrentIndex, ... )` converts the `int` prefix to
`unsigned int`, hence the `emod (2 ^ 32)`. -/
def NotInDictionary (fromNode frm : ℕ) (y : IO_State) (z : LZW_State) :
    IO_State × LZW_State :=
  let z1 : LZW_State :=
    { z with Index := updIdx z.Index fromNode frm z.NextIndex
             Dictionary := updD z.Dictionary z.NextIndex z.CurrentChar
             NextIndex := z.NextIndex + 1 }
  let y1 := asciistreamout ((z1.CurrentIndex.emod (2 ^ 32)).toNat) y z1
  let z2 : LZW_State := { z1 with CurrentIndex := (z1.CurrentChar : ℤ) }
  if z2.NextIndex = z2.MaxIndex then
    if z2.BitSize = BITMAX then
      let y2 := asciistreamout CLEARTABLE y1 z2
      let temp := z2.CurrentIndex
      (y2, { LZW_State_Init with CurrentIndex := temp })
    else
      (y1, { z2 with BitSize := z2.BitSize + 1, MaxIndex := 2 ^ (z2.BitSize + 1) })
  else (y1, z2)

/-- The `while(1)` binary-search-tree walk of `LZW`, with explicit fuel. -/
def LZWloop : ℕ → ℕ → IO_State → LZW_State → IO_State × LZW_State
  | 0, _, y, z => (y, z)
  | fuel + 1, X, y, z =>
    if z.CurrentChar = z.Dictionary X then
      (y, { z with CurrentIndex := (X : ℤ) })
    else if z.Dictionary X < z.CurrentChar then
      if z.Index RIGHT X = 0 then NotInDictionary RIGHT X y z
      else LZWloop fuel (z.Index RIGHT X) y z
    else
      if z.Index LEFT X = 0 then NotInDictionary LEFT X y z
      else LZWloop fuel (z.Index LEFT X) y z

/-- `LZW`: feed one byte `x` to the coder. -/
def LZW (x : ℕ) (y : IO_State) (z : LZW_State) : IO_State × LZW_State :=
  if z.CurrentIndex = -1 then (y, { z with CurrentIndex := (x : ℤ) })
  else
    let z1 : LZW_State := { z with CurrentChar := x }
    let X := z1.Index CHILD z1.CurrentIndex.toNat
    if X = 0 then NotInDictionary CHILD z1.CurrentIndex.toNat y z1
    else LZWloop TABLESIZE X y z1

/-! ### Body selector (`mexFunction`) -/

/-- The model of the input file: a list of NUL-free, newline-terminated
lines still to be read, plus the `feof` indicator.  `fgets` sets the
indicator only when a read hits end-of-file; reading the last
(newline-terminated) line does not set it. -/
structure MexIn where
  lines : List (List ℕ)
  eofFlag : Bool

/-- One `str[i][0] = 0; fgets(&str[i][0], MAXSTR, fin)` step: returns the
buffer contents after the call (the empty string when the read failed)
and the new reader state. -/
def fgetsClr : MexIn → List ℕ × MexIn
  | ⟨[], _⟩ => ([], ⟨[], true⟩)
  | ⟨l :: ls, _⟩ => (l, ⟨ls, false⟩)

/-- Feed the C string `str` (stopping at a NUL byte) to the LZW coder:
the `jj`/`ii` `while` loops of `mexFunction`. -/
def feedStr : List ℕ → IO_State × LZW_State → IO_State × LZW_State
  | [], s => s
  | b :: rest, (y, z) => if b = 0 then (y, z) else feedStr rest (LZW b y z)

/-- Result of the look-ahead `for( ii=1; ii<DSCGRACE; ii++ )` scan. -/
inductive ScanRes
  | eofStop (bufs : List (List ℕ))
  | comment (bufs : List (List ℕ))
  | full (bufs : List (List ℕ))

/-- The look-ahead scan: `k` remaining iterations (`k = DSCGRACE - ii`),
`bufs` the lines buffered so far (`str[0..ii)`).  `eofStop` is the
mid-scan `return`, `comment` the `ii = 0; break` path, `full` the
fall-through that starts compression. -/
def scanAhead : ℕ → List (List ℕ) → MexIn → ScanRes × MexIn
  | 0, bufs, inp => (.full bufs, inp)
  | k + 1, bufs, inp =>
    if inp.eofFlag then (.eofStop bufs, inp)
    else
      let (l, inp') := fgetsClr inp
      if [37, 37].isPrefixOf l then (.comment (bufs ++ [l]), inp')
      else scanAhead k (bufs ++ [l]) inp'

/-- The literal filter-invocation line, as bytes. -/
def filterLine : List ℕ :=
  ("currentfile/ASCII85Decode filter/LZWDecode filter cvx exec\n".toList.map Char.toNat)

/-- The `while( !feof( y.fin ) )` loop of `mexFunction`, with fuel
(`input.length + 2` always suffices). -/
def mexLoop : ℕ → ℕ → IO_State → LZW_State → MexIn → IO_State
  | 0, _, y, _, _ => y
  | fuel + 1, compState, y, z, inp =>
    if inp.eofFlag then
      if compState = 1 then
        let s1 := NotInDictionary 0 0 y z
        let y2 := asciistreamout ENDOFDATA s1.1 s1.2
        asciistreamout_cleanup y2
      else y
    else
      let (l, inp1) := fgetsClr inp
      if compState = 0 then
        if [37, 37].isPrefixOf l then
          mexLoop fuel 0 { y with out := y.out ++ l } z inp1
        else
          match scanAhead (DSCGRACE - 1) [l] inp1 with
          | (.eofStop bufs, _) => { y with out := y.out ++ bufs.flatten }
          | (.comment bufs, inp2) =>
            mexLoop fuel 0 { y with out := y.out ++ bufs.flatten } z inp2
          | (.full bufs, inp2) =>
            let y1 := IO_State_Init y
            let z1 := LZW_State_Init
            let y2 : IO_State := { y1 with out := y1.out ++ filterLine }
            let y3 := asciistreamout CLEARTABLE y2 z1
            let s4 := bufs.foldl (fun s l' => feedStr l' s) (y3, z1)
            mexLoop fuel 1 s4.1 s4.2 inp2
      else
        if [37, 37].isPrefixOf l then
          let s1 := NotInDictionary 0 0 y z
          let y2 := asciistreamout ENDOFDATA s1.1 s1.2
          let y3 := asciistreamout_cleanup y2
          mexLoop fuel 0 { y3 with out := y3.out ++ [10] ++ l } s1.2 inp1
        else
          let s1 := feedStr l (y, z)
          mexLoop fuel 1 s1.1 s1.2 inp1

/-- The binary DOS EPS magic `0xC5 0xD0 0xD3 0xC6`. -/
def epsMagic : List ℕ := [197, 208, 211, 198]

/-- The bytes of the ASCII magic `%!PS-Adobe-`. -/
def psMagic : List ℕ := ("%!PS-Adobe-".toList.map Char.toNat)

/-- The diagnostic of the header-format check. -/
def fmtErrMsg : String := "Input file is not an EPS file.\n"

/-- `mexFunction` after the argument and file-open checks: `input` is the
input file as lines; `g` models the indeterminate contents of the stack
buffer `str[0]`, which the header `fgets` leaves untouched when the input
is empty.  Returns the diagnostic (if the function aborted) and the bytes
written to the output file. -/
def mexFunction (input : List (List ℕ)) (g : List ℕ) : Option String × List ℕ :=
  let hi : List ℕ × MexIn :=
    match input with
    | [] => (g, ⟨[], true⟩)
    | l :: ls => (l, ⟨ls, false⟩)
  if ¬ (psMagic.isPrefixOf hi.1 ∨ epsMagic.isPrefixOf hi.1) then
    (some fmtErrMsg, [])
  else
    let y : IO_State := { zeroIOState with out := hi.1 }
    (none, (mexLoop (input.length + 2) 0 y LZW_State_Init hi.2).out)

/-! ### Helper lemmas: `asciiprv_put` and `putChars` -/

lemma asciiprv_put_Storage (x : ℕ) (y : IO_State) :
    (asciiprv_put x y).Storage = y.Storage := by
  unfold asciiprv_put; dsimp only; split <;> rfl

lemma asciiprv_put_StorageIndex (x : ℕ) (y : IO_State) :
    (asciiprv_put x y).StorageIndex = y.StorageIndex := by
  unfold asciiprv_put; dsimp only; split <;> rfl

lemma asciiprv_put_pushes (x : ℕ) (y : IO_State) :
    (asciiprv_put x y).pushes = y.pushes := by
  unfold asciiprv_put; dsimp only; split <;> rfl

lemma asciiprv_put_out_spec (x : ℕ) (y : IO_State) :
    ∃ t, (asciiprv_put x y).out = y.out ++ (x :: t) ∧ (t = [] ∨ t = [10]) := by
  unfold asciiprv_put; dsimp only; split
  · exact ⟨[10], by simp, Or.inr rfl⟩
  · exact ⟨[], by simp, Or.inl rfl⟩

lemma putChars_Storage (cs : List ℕ) (y : IO_State) :
    (putChars cs y).Storage = y.Storage := by
  induction cs generalizing y with
  | nil => rfl
  | cons c cs ih => rw [putChars, List.foldl_cons, ← putChars, ih, asciiprv_put_Storage]

lemma putChars_StorageIndex (cs : List ℕ) (y : IO_State) :
    (putChars cs y).StorageIndex = y.StorageIndex := by
  induction cs generalizing y with
  | nil => rfl
  | cons c cs ih => rw [putChars, List.foldl_cons, ← putChars, ih, asciiprv_put_StorageIndex]

lemma putChars_pushes (cs : List ℕ) (y : IO_State) :
    (putChars cs y).pushes = y.pushes := by
  induction cs generalizing y with
  | nil => rfl
  | cons c cs ih => rw [putChars, List.foldl_cons, ← putChars, ih, asciiprv_put_pushes]

/-- The bytes appended by `putChars` are the characters `cs` interleaved
with wrap newlines: filtering the newlines out recovers `cs` exactly. -/
lemma putChars_out_spec (cs : List ℕ) (y : IO_State) (h10 : 10 ∉ cs) :
    ∃ t, (putChars cs y).out = y.out ++ t ∧
      t.filter (fun c => c != 10) = cs ∧ ∀ c ∈ t, c ∈ cs ∨ c = 10 := by
  induction cs generalizing y with
  | nil => exact ⟨[], by simp [putChars], rfl, by simp⟩
  | cons c cs ih =>
    obtain ⟨t0, ht0, ht0e⟩ := asciiprv_put_out_spec c y
    obtain ⟨t1, ht1, ht1f, ht1m⟩ := ih (asciiprv_put c y) (fun h => h10 (List.mem_cons_of_mem _ h))
    refine ⟨c :: t0 ++ t1, ?_, ?_, ?_⟩
    · rw [putChars, List.foldl_cons, ← putChars, ht1, ht0]; simp
    · have hc : (c != 10) = true := by
        simp only [bne_iff_ne, ne_eq]
        exact fun h => h10 (h ▸ List.mem_cons_self c cs)
      rcases ht0e with rfl | rfl <;> simp [hc, ht1f]
    · intro d hd
      rcases List.mem_cons.mp hd with rfl | hd
      · exact Or.inl (List.mem_cons_self _ _)
      rcases List.mem_append.mp hd with hd | hd
      · rcases ht0e with rfl | rfl
        · simp at hd
        · simp at hd; exact Or.inr hd
      · rcases ht1m d hd with h | h
        · exact Or.inl (List.mem_cons_of_mem _ h)
        · exact Or.inr h

/-- Every character of the base-85 template lies in `33..117`. -/
lemma a85Chars_bounds (v : ℕ) : ∀ c ∈ a85Chars v, 33 ≤ c ∧ c ≤ 117 := by
  intro c hc
  simp only [a85Chars, List.mem_map, List.mem_range] at hc
  obtain ⟨i, _, rfl⟩ := hc
  constructor
  · omega
  · have : v / divisors.getD i 1 % 85 < 85 := Nat.mod_lt _ (by norm_num)
    omega

lemma cleanupChars_bounds (y : IO_State) : ∀ c ∈ cleanupChars y, 33 ≤ c ∧ c ≤ 117 := by
  intro c hc
  simp only [cleanupChars, List.mem_map, List.mem_range] at hc
  obtain ⟨i, _, rfl⟩ := hc
  constructor
  · omega
  · have : y.Storage / divisors.getD i 1 % 85 < 85 := Nat.mod_lt _ (by norm_num)
    omega

lemma ten_not_mem_cleanupChars (y : IO_State) : 10 ∉ cleanupChars y := by
  intro h
  have := (cleanupChars_bounds y) 10 h
  omega

/-- Structural form of the cleanup output: the drained characters, then
the `~>` marker. -/
lemma cleanup_out_spec (y : IO_State) :
    ∃ t, (asciistreamout_cleanup y).out = y.out ++ t ++ [126, 62] ∧
      t.filter (fun c => c != 10) = cleanupChars y ∧
      ∀ c ∈ t, c ∈ cleanupChars y ∨ c = 10 := by
  obtain ⟨t, ht, htf, htm⟩ := putChars_out_spec (cleanupChars y) y (ten_not_mem_cleanupChars y)
  exact ⟨t, by rw [asciistreamout_cleanup]; dsimp only; rw [ht], htf, htm⟩

/-- C10: the characters emitted by `asciistreamout_cleanup` before the
`~>` marker are exactly the truncated five-character division template
(interleaved only with wrap newlines), each template character lies in
the printable range `33..117` (`!`..`u`), and the `z` shorthand
(byte 122) is never emitted, even when the remaining accumulator value
is zero. -/
theorem c10_cleanup_template (y : IO_State) :
    ∃ t, (asciistreamout_cleanup y).out = y.out ++ t ++ [126, 62] ∧
      t.filter (fun c => c != 10) = cleanupChars y ∧
      (∀ c ∈ cleanupChars y, 33 ≤ c ∧ c ≤ 117) ∧
      (∀ c ∈ t, (33 ≤ c ∧ c ≤ 117) ∨ c = 10) ∧
      122 ∉ t := by
  obtain ⟨t, ht, htf, htm⟩ := cleanup_out_spec y
  refine ⟨t, ht, htf, cleanupChars_bounds y, ?_, ?_⟩
  · intro c hc
    rcases htm c hc with h | h
    · exact Or.inl (cleanupChars_bounds y c h)
    · exact Or.inr h
  · intro h122
    rcases htm 122 h122 with h | h
    · have := cleanupChars_bounds y 122 h
      omega
    · omega

/-- C2, counterexample: at a segment close with zero bits remaining in
the accumulator (`StorageIndex = 0`), the claim predicts zero emitted
characters (output `~>` alone, i.e. `[126, 62]`), but the code emits one
template character (`!` = 33) before the marker. -/
theorem c2_counterexample :
    (asciistreamout_cleanup zeroIOState).out = [33, 126, 62] ∧
    (asciistreamout_cleanup zeroIOState).out ≠ [126, 62] := by
  decide

/-- C2, amended: `asciistreamout_cleanup` emits exactly
`5 - (32 - b) / 8` template characters where `b` is the number of bits
remaining, i.e. `b / 8` rounded up *plus one* (range `1..5`); in
particular one character — not zero — is emitted when `b = 0`.
Afterwards it writes the two-character marker `~>`. -/
theorem c2_cleanup_count (y : IO_State) (h : y.StorageIndex ≤ 31) :
    (cleanupChars y).length = 5 - (32 - y.StorageIndex) / 8 ∧
    (cleanupChars y).length = (y.StorageIndex + 7) / 8 + 1 ∧
    1 ≤ (cleanupChars y).length ∧ (cleanupChars y).length ≤ 5 ∧
    ∃ t, (asciistreamout_cleanup y).out = y.out ++ t ++ [126, 62] ∧
      (t.filter (fun c => c != 10)).length = (y.StorageIndex + 7) / 8 + 1 := by
  have hlen : (cleanupChars y).length = 5 - (32 - y.StorageIndex) / 8 := by
    simp [cleanupChars]
  refine ⟨hlen, ?_, ?_, ?_, ?_⟩
  · rw [hlen]; omega
  · rw [hlen]; omega
  · rw [hlen]; omega
  · obtain ⟨t, ht, htf, _⟩ := cleanup_out_spec y
    refine ⟨t, ht, ?_⟩
    rw [htf, hlen]; omega

/-- Witness for `c2_cleanup_count` at a packer state with 12 remaining
bits: three characters (not `ceil(12/8) = 2`) precede the marker. -/
theorem c2_cleanup_count_witness :
    (cleanupChars ⟨0, 0, 12, [], []⟩).length = 5 - (32 - 12) / 8 ∧
    (cleanupChars ⟨0, 0, 12, [], []⟩).length = (12 + 7) / 8 + 1 ∧
    1 ≤ (cleanupChars ⟨0, 0, 12, [], []⟩).length ∧
    (cleanupChars ⟨0, 0, 12, [], []⟩).length ≤ 5 ∧
    ∃ t, (asciistreamout_cleanup ⟨0, 0, 12, [], []⟩).out =
        ([] : List ℕ) ++ t ++ [126, 62] ∧
      (t.filter (fun c => c != 10)).length = (12 + 7) / 8 + 1 :=
  c2_cleanup_count ⟨0, 0, 12, [], []⟩ (by decide)

example : (asciiprv_put 40 zeroIOState).out = [40] := by decide

lemma lor_eq_add_of_aligned {a b k : ℕ} (ha : a % 2 ^ k = 0) (hb : b < 2 ^ k) :
    a ||| b = a + b := by
  obtain ⟨m, rfl⟩ : 2 ^ k ∣ a := Nat.dvd_of_mod_eq_zero ha
  apply Nat.eq_of_testBit_eq
  intro i
  rw [Nat.testBit_lor]
  rcases Nat.lt_or_ge i k with hik | hik
  · obtain ⟨m', hm'⟩ : 2 ^ (i + 1) ∣ 2 ^ k * m := Dvd.dvd.mul_right (pow_dvd_pow 2 hik) m
    have hA : (2 ^ k * m).testBit i = false := by
      rw [Nat.testBit_to_div_mod, hm', pow_succ, Nat.mul_assoc,
        Nat.mul_div_cancel_left _ (Nat.two_pow_pos i), Nat.mul_mod_right]
      simp
    have hB : (2 ^ k * m + b).testBit i = b.testBit i := by
      rw [Nat.testBit_to_div_mod, Nat.testBit_to_div_mod, hm', pow_succ, Nat.mul_assoc,
        Nat.mul_add_div (Nat.two_pow_pos i), Nat.mul_add_mod]
    rw [hA, hB]
    simp
  · have hb0 : b / 2 ^ i = 0 :=
      Nat.div_eq_of_lt (lt_of_lt_of_le hb (Nat.pow_le_pow_right (by norm_num) hik))
    have e1 : (2 ^ k * m + b) / 2 ^ i = 2 ^ k * m / 2 ^ i := by
      have h2i : (2 : ℕ) ^ i = 2 ^ k * 2 ^ (i - k) := by
        rw [← pow_add]; congr 1; omega
      rw [h2i, ← Nat.div_div_eq_div_mul, ← Nat.div_div_eq_div_mul]
      congr 1
      rw [Nat.mul_add_div (Nat.two_pow_pos k), Nat.div_eq_of_lt hb, Nat.add_zero,
        Nat.mul_div_cancel_left _ (Nat.two_pow_pos k)]
    rw [Nat.testBit_to_div_mod, Nat.testBit_to_div_mod, Nat.testBit_to_div_mod, e1, hb0]
    simp

-- step 1: a reduction of asciistreamout under the case split
example (x : ℕ) (y : IO_State) (z : LZW_State)
    (hA : z.BitSize + y.StorageIndex ≤ 32) (hlt : y.StorageIndex + z.BitSize < 32) :
    asciistreamout x y z =
      { y with pushes := y.pushes ++ [(x, z.BitSize)],
               Storage := y.Storage ||| (x <<< (32 - z.BitSize - y.StorageIndex)) % 2 ^ 32,
               StorageIndex := y.StorageIndex + z.BitSize } := by
  unfold asciistreamout
  dsimp only
  rw [if_pos hA, if_neg (by dsimp only; omega)]


/-- Projection helpers for the emission step of `asciistreamout`. -/
lemma emitted_StorageIndex (c : Prop) [Decidable c] (v : List ℕ) (u : IO_State) :
    (if c then asciiprv_put 122 u else putChars v u).StorageIndex = u.StorageIndex := by
  split
  · exact asciiprv_put_StorageIndex _ _
  · exact putChars_StorageIndex _ _

lemma emitted_pushes (c : Prop) [Decidable c] (v : List ℕ) (u : IO_State) :
    (if c then asciiprv_put 122 u else putChars v u).pushes = u.pushes := by
  split
  · exact asciiprv_put_pushes _ _
  · exact putChars_pushes _ _

lemma emitted_out_spec (c : Prop) [Decidable c] (v : List ℕ) (u : IO_State)
    (h10 : 10 ∉ v) :
    ∃ t, (if c then asciiprv_put 122 u else putChars v u).out = u.out ++ t ∧
      t.filter (fun d => d != 10) = (if c then [122] else v) := by
  split
  · obtain ⟨t0, ht0, ht0e⟩ := asciiprv_put_out_spec 122 u
    refine ⟨122 :: t0, ht0, ?_⟩
    rcases ht0e with rfl | rfl <;> rfl
  · obtain ⟨t, ht, htf, _⟩ := putChars_out_spec v u h10
    exact ⟨t, ht, htf⟩

/-- Branch equation: store without emission. -/
lemma asciistreamout_eq_nofull (x : ℕ) (y : IO_State) (z : LZW_State)
    (hlt : y.StorageIndex + z.BitSize < 32) :
    asciistreamout x y z =
      { y with pushes := y.pushes ++ [(x, z.BitSize)],
               Storage := y.Storage ||| (x <<< (32 - z.BitSize - y.StorageIndex)) % 2 ^ 32,
               StorageIndex := y.StorageIndex + z.BitSize } := by
  unfold asciistreamout
  dsimp only
  rw [if_pos (by omega : z.BitSize + y.StorageIndex ≤ 32), if_neg (by dsimp only; omega)]

/-- Emission-case field lemmas, with the stored value abstracted:
`hs1` fixes the value the C code computed into `Storage` just before the
32-bit test. -/
lemma asciistreamout_full_fields (x : ℕ) (y : IO_State) (z : LZW_State) (s1 : ℕ)
    (h32 : 32 ≤ y.StorageIndex + z.BitSize)
    (hs1 : s1 = (if z.BitSize + y.StorageIndex ≤ 32
                 then y.Storage ||| (x <<< (32 - z.BitSize - y.StorageIndex)) % 2 ^ 32
                 else y.Storage ||| x >>> (z.BitSize + y.StorageIndex - 32))) :
    (asciistreamout x y z).pushes = y.pushes ++ [(x, z.BitSize)] ∧
    (asciistreamout x y z).StorageIndex = y.StorageIndex + z.BitSize - 32 ∧
    (asciistreamout x y z).Storage =
      (if y.StorageIndex + z.BitSize - 32 = 0 then 0
       else (x <<< (32 - (y.StorageIndex + z.BitSize - 32))) % 2 ^ 32) ∧
    ∃ t, (asciistreamout x y z).out = y.out ++ t ∧
      t.filter (fun d => d != 10) = (if s1 = 0 then [122] else a85Chars s1) := by
  subst hs1
  unfold asciistreamout
  dsimp only
  by_cases hc : z.BitSize + y.StorageIndex ≤ 32
  · simp only [if_pos hc]
    rw [if_pos (by omega : 32 ≤ y.StorageIndex + z.BitSize)]
    rw [emitted_StorageIndex]
    by_cases hz : y.StorageIndex + z.BitSize - 32 = 0
    · simp only [if_pos hz]
      refine ⟨by rw [emitted_pushes], by trivial, by trivial, ?_⟩
      exact emitted_out_spec _ (a85Chars _) _ (fun hmem =>
        by have := a85Chars_bounds _ 10 hmem; omega)
    · simp only [if_neg hz]
      refine ⟨by rw [emitted_pushes], by trivial, by trivial, ?_⟩
      exact emitted_out_spec _ (a85Chars _) _ (fun hmem =>
        by have := a85Chars_bounds _ 10 hmem; omega)
  · simp only [if_neg hc]
    rw [if_pos (by omega : 32 ≤ y.StorageIndex + z.BitSize)]
    rw [emitted_StorageIndex]
    by_cases hz : y.StorageIndex + z.BitSize - 32 = 0
    · simp only [if_pos hz]
      refine ⟨by rw [emitted_pushes], by trivial, by trivial, ?_⟩
      exact emitted_out_spec _ (a85Chars _) _ (fun hmem =>
        by have := a85Chars_bounds _ 10 hmem; omega)
    · simp only [if_neg hz]
      refine ⟨by rw [emitted_pushes], by trivial, by trivial, ?_⟩
      exact emitted_out_spec _ (a85Chars _) _ (fun hmem =>
        by have := a85Chars_bounds _ 10 hmem; omega)

/-- Arithmetic helper: an aligned value plus a fitting low part stays
below `2 ^ 32`. -/
lemma aligned_sum_lt {S b t : ℕ} (hS : S < 2 ^ b) (hb : b ≤ 32) (ht : t < 2 ^ (32 - b)) :
    S * 2 ^ (32 - b) + t < 2 ^ 32 := by
  have h1 : S * 2 ^ (32 - b) + t < (S + 1) * 2 ^ (32 - b) := by
    rw [Nat.add_mul, Nat.one_mul]
    omega
  have h2 : (S + 1) * 2 ^ (32 - b) ≤ 2 ^ b * 2 ^ (32 - b) :=
    Nat.mul_le_mul_right _ hS
  have h3 : (2 : ℕ) ^ b * 2 ^ (32 - b) = 2 ^ 32 := by
    rw [← pow_add]
    congr 1
    omega
  omega

theorem c3_push (x : ℕ) (y : IO_State) (z : LZW_State)
    (hx : x < 2 ^ z.BitSize) (hw : z.BitSize ≤ 12)
    (hb : y.StorageIndex ≤ 31) (hs : y.Storage < 2 ^ 32)
    (hal : y.Storage % 2 ^ (32 - y.StorageIndex) = 0) :
    (asciistreamout x y z).pushes = y.pushes ++ [(x, z.BitSize)] ∧
    (if y.StorageIndex + z.BitSize < 32 then
       (asciistreamout x y z).out = y.out ∧
       (asciistreamout x y z).StorageIndex = y.StorageIndex + z.BitSize ∧
       (asciistreamout x y z).Storage / 2 ^ (32 - (y.StorageIndex + z.BitSize)) =
         y.Storage / 2 ^ (32 - y.StorageIndex) * 2 ^ z.BitSize + x ∧
       (asciistreamout x y z).Storage % 2 ^ (32 - (y.StorageIndex + z.BitSize)) = 0 ∧
       (asciistreamout x y z).Storage < 2 ^ 32
     else
       ∃ V t,
         V = y.Storage + x / 2 ^ (y.StorageIndex + z.BitSize - 32) ∧
         V < 2 ^ 32 ∧
         y.Storage / 2 ^ (32 - y.StorageIndex) * 2 ^ z.BitSize + x =
           V * 2 ^ (y.StorageIndex + z.BitSize - 32) +
             x % 2 ^ (y.StorageIndex + z.BitSize - 32) ∧
         (asciistreamout x y z).out = y.out ++ t ∧
         t.filter (fun d => d != 10) = (if V = 0 then [122] else a85Chars V) ∧
         a85Chars V = [V / 85 ^ 4 % 85 + 33, V / 85 ^ 3 % 85 + 33,
           V / 85 ^ 2 % 85 + 33, V / 85 ^ 1 % 85 + 33, V / 85 ^ 0 % 85 + 33] ∧
         (asciistreamout x y z).StorageIndex = y.StorageIndex + z.BitSize - 32 ∧
         (asciistreamout x y z).StorageIndex ≤ 30 ∧
         (asciistreamout x y z).Storage =
           x % 2 ^ (y.StorageIndex + z.BitSize - 32) *
             2 ^ (32 - (y.StorageIndex + z.BitSize - 32)) ∧
         (asciistreamout x y z).Storage % 2 ^ (32 - (y.StorageIndex + z.BitSize - 32)) = 0 ∧
         (asciistreamout x y z).Storage < 2 ^ 32) := by
  have ha85 : ∀ v : ℕ, a85Chars v = [v / 85 ^ 4 % 85 + 33, v / 85 ^ 3 % 85 + 33,
      v / 85 ^ 2 % 85 + 33, v / 85 ^ 1 % 85 + 33, v / 85 ^ 0 % 85 + 33] := by
    intro v
    simp [a85Chars, divisors, List.range_succ]
  have hSmul : y.Storage / 2 ^ (32 - y.StorageIndex) * 2 ^ (32 - y.StorageIndex) = y.Storage :=
    Nat.div_mul_cancel (Nat.dvd_of_mod_eq_zero hal)
  have hSlt : y.Storage / 2 ^ (32 - y.StorageIndex) < 2 ^ y.StorageIndex := by
    rw [Nat.div_lt_iff_lt_mul (Nat.two_pow_pos _)]
    calc y.Storage < 2 ^ 32 := hs
    _ = 2 ^ y.StorageIndex * 2 ^ (32 - y.StorageIndex) := by
        rw [← pow_add,
          show y.StorageIndex + (32 - y.StorageIndex) = 32 by omega]
  by_cases hlt : y.StorageIndex + z.BitSize < 32
  · rw [asciistreamout_eq_nofull x y z hlt]
    simp only [if_pos hlt]
    have hk : 32 - z.BitSize - y.StorageIndex = 32 - (y.StorageIndex + z.BitSize) := by omega
    have hshift : x <<< (32 - z.BitSize - y.StorageIndex) =
        x * 2 ^ (32 - (y.StorageIndex + z.BitSize)) := by
      rw [Nat.shiftLeft_eq, hk]
    have hxlt : x * 2 ^ (32 - (y.StorageIndex + z.BitSize)) < 2 ^ (32 - y.StorageIndex) := by
      calc x * 2 ^ (32 - (y.StorageIndex + z.BitSize)) <
          2 ^ z.BitSize * 2 ^ (32 - (y.StorageIndex + z.BitSize)) :=
            (Nat.mul_lt_mul_right (Nat.two_pow_pos _)).mpr hx
      _ = 2 ^ (32 - y.StorageIndex) := by rw [← pow_add]; congr 1; omega
    have hmod : x * 2 ^ (32 - (y.StorageIndex + z.BitSize)) % 2 ^ 32 =
        x * 2 ^ (32 - (y.StorageIndex + z.BitSize)) := by
      apply Nat.mod_eq_of_lt
      calc x * 2 ^ (32 - (y.StorageIndex + z.BitSize)) < 2 ^ (32 - y.StorageIndex) := hxlt
      _ ≤ 2 ^ 32 := Nat.pow_le_pow_right (by norm_num) (by omega)
    have hor : y.Storage ||| x * 2 ^ (32 - (y.StorageIndex + z.BitSize)) =
        y.Storage + x * 2 ^ (32 - (y.StorageIndex + z.BitSize)) :=
      lor_eq_add_of_aligned hal hxlt
    have hsplit : y.Storage + x * 2 ^ (32 - (y.StorageIndex + z.BitSize)) =
        (y.Storage / 2 ^ (32 - y.StorageIndex) * 2 ^ z.BitSize + x) *
          2 ^ (32 - (y.StorageIndex + z.BitSize)) := by
      rw [Nat.add_mul]
      congr 1
      rw [Nat.mul_assoc, ← pow_add]
      rw [show z.BitSize + (32 - (y.StorageIndex + z.BitSize)) = 32 - y.StorageIndex by omega]
      exact hSmul.symm
    refine ⟨by trivial, by trivial, by trivial, ?_, ?_, ?_⟩
    · dsimp only
      rw [hshift, hmod, hor, hsplit, Nat.mul_div_cancel _ (Nat.two_pow_pos _)]
    · dsimp only
      rw [hshift, hmod, hor, hsplit, Nat.mul_mod_left]
    · dsimp only
      rw [hshift, hmod, hor]
      calc y.Storage + x * 2 ^ (32 - (y.StorageIndex + z.BitSize)) =
          y.Storage / 2 ^ (32 - y.StorageIndex) * 2 ^ (32 - y.StorageIndex) +
            x * 2 ^ (32 - (y.StorageIndex + z.BitSize)) := by rw [hSmul]
      _ < 2 ^ 32 := aligned_sum_lt hSlt (by omega) hxlt
  · obtain ⟨hp, hSI, hSt, t, hout, hfil⟩ :=
      asciistreamout_full_fields x y z _ (by omega) rfl
    rw [if_neg hlt]
    by_cases hc : z.BitSize + y.StorageIndex ≤ 32
    · -- exact fill: StorageIndex + BitSize = 32
      have heq : y.StorageIndex + z.BitSize = 32 := by omega
      have hk0 : 32 - z.BitSize - y.StorageIndex = 0 := by omega
      have hs1 : (if z.BitSize + y.StorageIndex ≤ 32
          then y.Storage ||| (x <<< (32 - z.BitSize - y.StorageIndex)) % 2 ^ 32
          else y.Storage ||| x >>> (z.BitSize + y.StorageIndex - 32)) = y.Storage + x := by
        rw [if_pos hc, hk0]
        rw [show x <<< 0 = x from rfl]
        rw [Nat.mod_eq_of_lt (lt_of_lt_of_le hx (Nat.pow_le_pow_right (by norm_num) hw |>.trans
          (Nat.pow_le_pow_right (by norm_num) (by norm_num))))]
        apply lor_eq_add_of_aligned hal
        calc x < 2 ^ z.BitSize := hx
        _ = 2 ^ (32 - y.StorageIndex) := by congr 1; omega
      refine ⟨hp, y.Storage + x, t, ?_, ?_, ?_, hout, ?_, ha85 _, ?_, ?_, ?_, ?_, ?_⟩
      · rw [show y.StorageIndex + z.BitSize - 32 = 0 by omega]
        simp [Nat.div_one]
      · have := aligned_sum_lt hSlt (by omega) (show x < 2 ^ (32 - y.StorageIndex) by
          calc x < 2 ^ z.BitSize := hx
          _ = 2 ^ (32 - y.StorageIndex) := by congr 1; omega)
        rw [hSmul] at this
        exact this
      · rw [show y.StorageIndex + z.BitSize - 32 = 0 by omega,
          show (2 : ℕ) ^ z.BitSize = 2 ^ (32 - y.StorageIndex) by congr 1; omega,
          hSmul]
        simp [Nat.mod_one]
      · rw [hfil, hs1]
      · exact hSI
      · rw [hSI]; omega
      · rw [hSt, if_pos (by omega : y.StorageIndex + z.BitSize - 32 = 0),
          show y.StorageIndex + z.BitSize - 32 = 0 by omega]
        simp [Nat.mod_one]
      · rw [hSt, if_pos (by omega : y.StorageIndex + z.BitSize - 32 = 0)]
        simp
      · rw [hSt, if_pos (by omega : y.StorageIndex + z.BitSize - 32 = 0)]
        exact Nat.two_pow_pos 32
    · -- overflow: StorageIndex + BitSize > 32
      have hgt : 32 < y.StorageIndex + z.BitSize := by omega
      have hbp : y.StorageIndex + z.BitSize - 32 = z.BitSize + y.StorageIndex - 32 := by omega
      have hwsum : 32 - y.StorageIndex + (y.StorageIndex + z.BitSize - 32) = z.BitSize := by
        omega
      have hdivlt : x / 2 ^ (y.StorageIndex + z.BitSize - 32) < 2 ^ (32 - y.StorageIndex) := by
        rw [Nat.div_lt_iff_lt_mul (Nat.two_pow_pos _)]
        calc x < 2 ^ z.BitSize := hx
        _ = 2 ^ (32 - y.StorageIndex) * 2 ^ (y.StorageIndex + z.BitSize - 32) := by
            rw [← pow_add, hwsum]
      have hs1 : (if z.BitSize + y.StorageIndex ≤ 32
          then y.Storage ||| (x <<< (32 - z.BitSize - y.StorageIndex)) % 2 ^ 32
          else y.Storage ||| x >>> (z.BitSize + y.StorageIndex - 32)) =
          y.Storage + x / 2 ^ (y.StorageIndex + z.BitSize - 32) := by
        rw [if_neg hc, ← hbp, Nat.shiftRight_eq_div_pow]
        exact lor_eq_add_of_aligned hal hdivlt
      refine ⟨hp, y.Storage + x / 2 ^ (y.StorageIndex + z.BitSize - 32), t, rfl, ?_, ?_,
        hout, ?_, ha85 _, hSI, ?_, ?_, ?_, ?_⟩
      · have := aligned_sum_lt hSlt (by omega) hdivlt
        rw [hSmul] at this
        exact this
      · rw [Nat.add_mul, Nat.add_assoc, Nat.div_add_mod']
        congr 1
        conv_rhs => rw [← hSmul]
        rw [Nat.mul_assoc, ← pow_add, hwsum]
      · rw [hfil, hs1]
      · rw [hSI]; omega
      · rw [hSt, if_neg (by omega : ¬ y.StorageIndex + z.BitSize - 32 = 0)]
        rw [Nat.shiftLeft_eq]
        rw [show (2 : ℕ) ^ 32 = 2 ^ (y.StorageIndex + z.BitSize - 32) *
          2 ^ (32 - (y.StorageIndex + z.BitSize - 32)) by rw [← pow_add]; congr 1; omega]
        exact Nat.mul_mod_mul_right _ _ _
      · rw [hSt, if_neg (by omega : ¬ y.StorageIndex + z.BitSize - 32 = 0)]
        rw [Nat.shiftLeft_eq]
        rw [show (2 : ℕ) ^ 32 = 2 ^ (y.StorageIndex + z.BitSize - 32) *
          2 ^ (32 - (y.StorageIndex + z.BitSize - 32)) by rw [← pow_add]; congr 1; omega]
        rw [Nat.mul_mod_mul_right]
        exact Nat.mul_mod_left _ _
      · rw [hSt, if_neg (by omega : ¬ y.StorageIndex + z.BitSize - 32 = 0)]
        exact Nat.mod_lt _ (Nat.two_pow_pos 32)

/-- Every call to `asciistreamout` records exactly one `(code, width)`
pair, at the current `BitSize`. -/
lemma asciistreamout_pushes (x : ℕ) (y : IO_State) (z : LZW_State) :
    (asciistreamout x y z).pushes = y.pushes ++ [(x, z.BitSize)] := by
  by_cases hlt : y.StorageIndex + z.BitSize < 32
  · rw [asciistreamout_eq_nofull x y z hlt]
  · exact (asciistreamout_full_fields x y z _ (by omega) rfl).1

theorem c4_widthswitch (fromNode frm : ℕ) (y : IO_State) (z : LZW_State)
    (htrig : z.NextIndex + 1 = z.MaxIndex) :
    if z.BitSize = BITMAX then
      (NotInDictionary fromNode frm y z).2.BitSize = 9 ∧
      (NotInDictionary fromNode frm y z).2.NextIndex = 258 ∧
      (NotInDictionary fromNode frm y z).2.MaxIndex = 2 ^ 9 ∧
      (NotInDictionary fromNode frm y z).2.Index = (fun _ _ => 0) ∧
      (NotInDictionary fromNode frm y z).2.Dictionary = (fun _ => 0) ∧
      (NotInDictionary fromNode frm y z).2.CurrentIndex = (z.CurrentChar : ℤ) ∧
      (NotInDictionary fromNode frm y z).1.pushes =
        y.pushes ++ [((z.CurrentIndex.emod (2 ^ 32)).toNat, 12), (CLEARTABLE, 12)]
    else
      (NotInDictionary fromNode frm y z).2.BitSize = z.BitSize + 1 ∧
      (NotInDictionary fromNode frm y z).2.MaxIndex = 2 ^ (z.BitSize + 1) ∧
      (NotInDictionary fromNode frm y z).2.NextIndex = z.NextIndex + 1 ∧
      (NotInDictionary fromNode frm y z).2.CurrentIndex = (z.CurrentChar : ℤ) ∧
      (NotInDictionary fromNode frm y z).1.pushes =
        y.pushes ++ [((z.CurrentIndex.emod (2 ^ 32)).toNat, z.BitSize)] := by
  unfold NotInDictionary
  dsimp only
  rw [if_pos (show z.NextIndex + 1 = z.MaxIndex from htrig)]
  by_cases hB : z.BitSize = BITMAX
  · rw [if_pos hB, if_pos hB]
    refine ⟨rfl, rfl, rfl, rfl, rfl, rfl, ?_⟩
    dsimp only
    rw [asciistreamout_pushes, asciistreamout_pushes]
    dsimp only
    rw [List.append_assoc, hB]
    rfl
  · rw [if_neg hB, if_neg hB]
    exact ⟨rfl, rfl, rfl, rfl, by rw [asciistreamout_pushes]⟩

/-! ### Pure search specification of the dictionary walk -/

/-- Outcome of the binary-search-tree walk, computed without mutation. -/
inductive SearchRes where
  | found (X : ℕ)
  | insertAt (node frm : ℕ)
  | stuck
deriving DecidableEq

/-- Pure walk of the BST rooted at `X`, keyed on `z.CurrentChar`:
`found` is the code whose terminal byte matches, `insertAt` the first
zero link encountered. -/
def bstSearch : ℕ → LZW_State → ℕ → SearchRes
  | 0, _, _ => .stuck
  | fuel + 1, z, X =>
    if z.CurrentChar = z.Dictionary X then .found X
    else if z.Dictionary X < z.CurrentChar then
      if z.Index RIGHT X = 0 then .insertAt RIGHT X
      else bstSearch fuel z (z.Index RIGHT X)
    else
      if z.Index LEFT X = 0 then .insertAt LEFT X
      else bstSearch fuel z (z.Index LEFT X)

/-- The imperative walk `LZWloop` is the pure search followed by the
corresponding action. -/
lemma LZWloop_eq_search (fuel X : ℕ) (y : IO_State) (z : LZW_State) :
    LZWloop fuel X y z =
      match bstSearch fuel z X with
      | .found X' => (y, { z with CurrentIndex := (X' : ℤ) })
      | .insertAt node frm => NotInDictionary node frm y z
      | .stuck => (y, z) := by
  induction fuel generalizing X with
  | zero => rfl
  | succ fuel ih =>
    rw [LZWloop, bstSearch]
    by_cases h1 : z.CurrentChar = z.Dictionary X
    · rw [if_pos h1, if_pos h1]
    · rw [if_neg h1, if_neg h1]
      by_cases h2 : z.Dictionary X < z.CurrentChar
      · rw [if_pos h2, if_pos h2]
        by_cases h3 : z.Index RIGHT X = 0
        · rw [if_pos h3, if_pos h3]
        · rw [if_neg h3, if_neg h3, ih]
      · rw [if_neg h2, if_neg h2]
        by_cases h3 : z.Index LEFT X = 0
        · rw [if_pos h3, if_pos h3]
        · rw [if_neg h3, if_neg h3, ih]

/-- Soundness of `found`: the returned code's terminal byte is the key. -/
lemma bstSearch_found (fuel : ℕ) (z : LZW_State) (X X' : ℕ)
    (h : bstSearch fuel z X = .found X') : z.Dictionary X' = z.CurrentChar := by
  induction fuel generalizing X with
  | zero => exact absurd h (by rw [bstSearch]; intro hcon; cases hcon)
  | succ fuel ih =>
    rw [bstSearch] at h
    by_cases h1 : z.CurrentChar = z.Dictionary X
    · rw [if_pos h1] at h
      cases h
      exact h1.symm
    · rw [if_neg h1] at h
      by_cases h2 : z.Dictionary X < z.CurrentChar
      · rw [if_pos h2] at h
        by_cases h3 : z.Index RIGHT X = 0
        · rw [if_pos h3] at h; cases h
        · rw [if_neg h3] at h; exact ih _ h
      · rw [if_neg h2] at h
        by_cases h3 : z.Index LEFT X = 0
        · rw [if_pos h3] at h; cases h
        · rw [if_neg h3] at h; exact ih _ h

/-- Soundness of `insertAt`: the slot is the first zero link, reached by
descending LEFT on smaller and RIGHT on larger keys. -/
lemma bstSearch_insert (fuel : ℕ) (z : LZW_State) (X node frm : ℕ)
    (h : bstSearch fuel z X = .insertAt node frm) :
    z.Index node frm = 0 ∧
      ((node = LEFT ∧ z.CurrentChar < z.Dictionary frm) ∨
       (node = RIGHT ∧ z.Dictionary frm < z.CurrentChar)) := by
  induction fuel generalizing X with
  | zero => exact absurd h (by rw [bstSearch]; intro hcon; cases hcon)
  | succ fuel ih =>
    rw [bstSearch] at h
    by_cases h1 : z.CurrentChar = z.Dictionary X
    · rw [if_pos h1] at h; cases h
    · rw [if_neg h1] at h
      by_cases h2 : z.Dictionary X < z.CurrentChar
      · rw [if_pos h2] at h
        by_cases h3 : z.Index RIGHT X = 0
        · rw [if_pos h3] at h
          cases h
          exact ⟨h3, Or.inr ⟨rfl, h2⟩⟩
        · rw [if_neg h3] at h; exact ih _ h
      · rw [if_neg h2] at h
        by_cases h3 : z.Index LEFT X = 0
        · rw [if_pos h3] at h
          cases h
          exact ⟨h3, Or.inl ⟨rfl, by omega⟩⟩
        · rw [if_neg h3] at h; exact ih _ h

/-- Field characterization of `NotInDictionary` when the call does not
reset the dictionary (`NextIndex` not reaching `MaxIndex` at maximum
width). -/
lemma NotInDictionary_fields (fromNode frm : ℕ) (y : IO_State) (z : LZW_State)
    (hnr : ¬(z.NextIndex + 1 = z.MaxIndex ∧ z.BitSize = BITMAX)) :
    (NotInDictionary fromNode frm y z).2.Index = updIdx z.Index fromNode frm z.NextIndex ∧
    (NotInDictionary fromNode frm y z).2.Dictionary =
      updD z.Dictionary z.NextIndex z.CurrentChar ∧
    (NotInDictionary fromNode frm y z).2.NextIndex = z.NextIndex + 1 ∧
    (NotInDictionary fromNode frm y z).2.CurrentIndex = (z.CurrentChar : ℤ) ∧
    (NotInDictionary fromNode frm y z).2.CurrentChar = z.CurrentChar ∧
    (NotInDictionary fromNode frm y z).1.pushes =
      y.pushes ++ [((z.CurrentIndex.emod (2 ^ 32)).toNat, z.BitSize)] := by
  unfold NotInDictionary
  dsimp only
  by_cases ht : z.NextIndex + 1 = z.MaxIndex
  · rw [if_pos ht, if_neg (fun hB => hnr ⟨ht, hB⟩)]
    exact ⟨rfl, rfl, rfl, rfl, rfl, by rw [asciistreamout_pushes]⟩
  · rw [if_neg ht]
    exact ⟨rfl, rfl, rfl, rfl, rfl, by rw [asciistreamout_pushes]⟩

theorem c5_feed (x : ℕ) (y : IO_State) (z : LZW_State)
    (hreset : ¬(z.NextIndex + 1 = z.MaxIndex ∧ z.BitSize = BITMAX)) :
    (z.CurrentIndex = -1 →
      LZW x y z = (y, { z with CurrentIndex := (x : ℤ) })) ∧
    (z.CurrentIndex ≠ -1 → z.Index CHILD z.CurrentIndex.toNat = 0 →
      LZW x y z = NotInDictionary CHILD z.CurrentIndex.toNat y { z with CurrentChar := x } ∧
      (LZW x y z).2.Index CHILD z.CurrentIndex.toNat = z.NextIndex ∧
      (LZW x y z).2.Dictionary z.NextIndex = x ∧
      (LZW x y z).2.CurrentIndex = (x : ℤ) ∧
      (LZW x y z).1.pushes =
        y.pushes ++ [((z.CurrentIndex.emod (2 ^ 32)).toNat, z.BitSize)]) ∧
    (z.CurrentIndex ≠ -1 → ∀ X', z.Index CHILD z.CurrentIndex.toNat ≠ 0 →
      bstSearch TABLESIZE { z with CurrentChar := x }
          (z.Index CHILD z.CurrentIndex.toNat) = .found X' →
      z.Dictionary X' = x ∧
      LZW x y z = (y, { z with CurrentChar := x, CurrentIndex := (X' : ℤ) })) ∧
    (z.CurrentIndex ≠ -1 → ∀ node frm, z.Index CHILD z.CurrentIndex.toNat ≠ 0 →
      bstSearch TABLESIZE { z with CurrentChar := x }
          (z.Index CHILD z.CurrentIndex.toNat) = .insertAt node frm →
      z.Index node frm = 0 ∧
      ((node = LEFT ∧ x < z.Dictionary frm) ∨ (node = RIGHT ∧ z.Dictionary frm < x)) ∧
      LZW x y z = NotInDictionary node frm y { z with CurrentChar := x } ∧
      (LZW x y z).2.Index node frm = z.NextIndex ∧
      (LZW x y z).2.Dictionary z.NextIndex = x ∧
      (LZW x y z).2.CurrentIndex = (x : ℤ) ∧
      (LZW x y z).1.pushes =
        y.pushes ++ [((z.CurrentIndex.emod (2 ^ 32)).toNat, z.BitSize)]) := by
  refine ⟨?_, ?_, ?_, ?_⟩
  · intro hm1
    rw [LZW, if_pos hm1]
  · intro hm1 hch
    have hLZW : LZW x y z =
        NotInDictionary CHILD z.CurrentIndex.toNat y { z with CurrentChar := x } := by
      rw [LZW, if_neg hm1]
      dsimp only
      rw [if_pos hch]
    obtain ⟨hI, hD, _, hCI, hCC, hpush⟩ :=
      NotInDictionary_fields CHILD z.CurrentIndex.toNat y { z with CurrentChar := x }
        (by exact hreset)
    refine ⟨hLZW, ?_, ?_, ?_, ?_⟩
    · rw [hLZW, hI]
      simp [updIdx]
    · rw [hLZW, hD]
      simp [updD]
    · rw [hLZW, hCI]
    · rw [hLZW, hpush]
  · intro hm1 X' hch hfound
    refine ⟨?_, ?_⟩
    · have := bstSearch_found _ _ _ _ hfound
      exact this
    · rw [LZW, if_neg hm1]
      dsimp only
      rw [if_neg hch, LZWloop_eq_search, hfound]
  · intro hm1 node frm hch hins
    obtain ⟨hzero, hside⟩ := bstSearch_insert _ _ _ _ _ hins
    have hLZW : LZW x y z = NotInDictionary node frm y { z with CurrentChar := x } := by
      rw [LZW, if_neg hm1]
      dsimp only
      rw [if_neg hch, LZWloop_eq_search, hins]
    obtain ⟨hI, hD, _, hCI, hCC, hpush⟩ :=
      NotInDictionary_fields node frm y { z with CurrentChar := x } (by exact hreset)
    refine ⟨hzero, ?_, hLZW, ?_, ?_, ?_, ?_⟩
    · exact hside
    · rw [hLZW, hI]
      simp [updIdx]
    · rw [hLZW, hD]
      simp [updD]
    · rw [hLZW, hCI]
    · rw [hLZW, hpush]

theorem c7_feedline (l : List ℕ) (s : IO_State × LZW_State) (h0 : 0 ∉ l) :
    feedStr l s = l.foldl (fun s' b => LZW b s'.1 s'.2) s := by
  induction l generalizing s with
  | nil => rfl
  | cons b rest ih =>
    obtain ⟨y, z⟩ := s
    have hb : ¬ b = 0 := by
      intro h
      subst h
      exact h0 (List.mem_cons_self 0 rest)
    rw [List.foldl_cons, feedStr, if_neg hb]
    exact ih _ (fun h => h0 (List.mem_cons_of_mem _ h))

/-! ### Output-extension lemmas: every stage only appends to `out` -/

lemma asciistreamout_out_ext (x : ℕ) (y : IO_State) (z : LZW_State) :
    ∃ t, (asciistreamout x y z).out = y.out ++ t := by
  by_cases hlt : y.StorageIndex + z.BitSize < 32
  · refine ⟨[], ?_⟩
    rw [asciistreamout_eq_nofull x y z hlt]
    simp
  · obtain ⟨_, _, _, t, hout, _⟩ := asciistreamout_full_fields x y z _ (by omega) rfl
    exact ⟨t, hout⟩

lemma NotInDictionary_out_ext (fromNode frm : ℕ) (y : IO_State) (z : LZW_State) :
    ∃ t, (NotInDictionary fromNode frm y z).1.out = y.out ++ t := by
  unfold NotInDictionary
  dsimp only
  obtain ⟨t1, ht1⟩ := asciistreamout_out_ext
    (((z.CurrentIndex : ℤ).emod (2 ^ 32)).toNat) y
    { z with Index := updIdx z.Index fromNode frm z.NextIndex
             Dictionary := updD z.Dictionary z.NextIndex z.CurrentChar
             NextIndex := z.NextIndex + 1 }
  split
  · split
    · obtain ⟨t2, ht2⟩ := asciistreamout_out_ext CLEARTABLE _ _
      exact ⟨t1 ++ t2, by dsimp only; rw [ht2, ht1, List.append_assoc]⟩
    · exact ⟨t1, ht1⟩
  · exact ⟨t1, ht1⟩

lemma LZW_out_ext (x : ℕ) (y : IO_State) (z : LZW_State) :
    ∃ t, (LZW x y z).1.out = y.out ++ t := by
  rw [LZW]
  split
  · exact ⟨[], by simp⟩
  · dsimp only
    split
    · exact NotInDictionary_out_ext _ _ _ _
    · rw [LZWloop_eq_search]
      split
      · exact ⟨[], by simp⟩
      · exact NotInDictionary_out_ext _ _ _ _
      · exact ⟨[], by simp⟩

lemma feedStr_out_ext (l : List ℕ) (s : IO_State × LZW_State) :
    ∃ t, (feedStr l s).1.out = s.1.out ++ t := by
  induction l generalizing s with
  | nil => exact ⟨[], by simp [feedStr]⟩
  | cons b rest ih =>
    obtain ⟨y, z⟩ := s
    rw [feedStr]
    split
    · exact ⟨[], by simp⟩
    · obtain ⟨t1, ht1⟩ := LZW_out_ext b y z
      obtain ⟨t2, ht2⟩ := ih (LZW b y z)
      exact ⟨t1 ++ t2, by rw [ht2, ht1, List.append_assoc]⟩

lemma feedFold_out_ext (bufs : List (List ℕ)) (s : IO_State × LZW_State) :
    ∃ t, (bufs.foldl (fun s' l' => feedStr l' s') s).1.out = s.1.out ++ t := by
  induction bufs generalizing s with
  | nil => exact ⟨[], by simp⟩
  | cons b rest ih =>
    rw [List.foldl_cons]
    obtain ⟨t1, ht1⟩ := feedStr_out_ext b s
    obtain ⟨t2, ht2⟩ := ih (feedStr b s)
    exact ⟨t1 ++ t2, by rw [ht2, ht1, List.append_assoc]⟩

lemma cleanup_out_ext (y : IO_State) :
    ∃ t, (asciistreamout_cleanup y).out = y.out ++ t := by
  obtain ⟨t, ht, _, _⟩ := cleanup_out_spec y
  exact ⟨t ++ [126, 62], by rw [ht, List.append_assoc]⟩

lemma out_pref_asciistreamout (x : ℕ) (y : IO_State) (z : LZW_State) :
    y.out <+: (asciistreamout x y z).out := by
  obtain ⟨t, ht⟩ := asciistreamout_out_ext x y z
  rw [ht]
  exact List.prefix_append _ _

lemma out_pref_NotInDictionary (fromNode frm : ℕ) (y : IO_State) (z : LZW_State) :
    y.out <+: (NotInDictionary fromNode frm y z).1.out := by
  obtain ⟨t, ht⟩ := NotInDictionary_out_ext fromNode frm y z
  rw [ht]
  exact List.prefix_append _ _

lemma out_pref_feedStr (l : List ℕ) (s : IO_State × LZW_State) :
    s.1.out <+: (feedStr l s).1.out := by
  obtain ⟨t, ht⟩ := feedStr_out_ext l s
  rw [ht]
  exact List.prefix_append _ _

lemma out_pref_feedFold (bufs : List (List ℕ)) (s : IO_State × LZW_State) :
    s.1.out <+: (bufs.foldl (fun s' l' => feedStr l' s') s).1.out := by
  obtain ⟨t, ht⟩ := feedFold_out_ext bufs s
  rw [ht]
  exact List.prefix_append _ _

lemma out_pref_cleanup (y : IO_State) :
    y.out <+: (asciistreamout_cleanup y).out := by
  obtain ⟨t, ht⟩ := cleanup_out_ext y
  rw [ht]
  exact List.prefix_append _ _

/-- The main loop only appends to the output stream. -/
lemma out_pref_mexLoop (fuel : ℕ) (cs : ℕ) (y : IO_State) (z : LZW_State) (inp : MexIn) :
    y.out <+: (mexLoop fuel cs y z inp).out := by
  induction fuel generalizing cs y z inp with
  | zero => exact List.prefix_rfl
  | succ fuel ih =>
    rw [mexLoop]
    split
    · split
      · exact ((out_pref_NotInDictionary _ _ _ _).trans
          (out_pref_asciistreamout _ _ _)).trans (out_pref_cleanup _)
      · exact List.prefix_rfl
    · split
      split
      · split
        · refine List.IsPrefix.trans ?_ (ih _ _ _ _)
          exact List.prefix_append _ _
        · split
          · exact List.prefix_append _ _
          · refine List.IsPrefix.trans ?_ (ih _ _ _ _)
            exact List.prefix_append _ _
          · refine List.IsPrefix.trans ?_ (ih _ _ _ _)
            refine List.IsPrefix.trans ?_ (out_pref_feedFold _ _)
            refine List.IsPrefix.trans ?_ (out_pref_asciistreamout _ _ _)
            exact List.prefix_append _ _
      · split
        · refine List.IsPrefix.trans ?_ (ih _ _ _ _)
          refine List.IsPrefix.trans ?_ (List.prefix_append _ _)
          refine List.IsPrefix.trans ?_ (List.prefix_append _ _)
          refine List.IsPrefix.trans ?_ (out_pref_cleanup _)
          refine List.IsPrefix.trans ?_ (out_pref_asciistreamout _ _ _)
          exact out_pref_NotInDictionary _ _ _ _
        · refine List.IsPrefix.trans ?_ (ih _ _ _ _)
          exact out_pref_feedStr _ (y, z)

theorem c8_header (l : List ℕ) (ls : List (List ℕ)) (g : List ℕ) :
    if psMagic.isPrefixOf l ∨ epsMagic.isPrefixOf l then
      (mexFunction (l :: ls) g).1 = none ∧
      ∃ rest, (mexFunction (l :: ls) g).2 = l ++ rest
    else
      mexFunction (l :: ls) g = (some fmtErrMsg, []) := by
  unfold mexFunction
  dsimp only
  by_cases hm : psMagic.isPrefixOf l ∨ epsMagic.isPrefixOf l
  · rw [if_pos hm, if_neg (not_not_intro hm)]
    dsimp only
    refine ⟨rfl, ?_⟩
    obtain ⟨rest, hrest⟩ :=
      out_pref_mexLoop ((l :: ls).length + 2) 0 { zeroIOState with out := l }
        LZW_State_Init ⟨ls, false⟩
    exact ⟨rest, hrest.symm⟩
  · rw [if_neg hm, if_pos hm]

theorem c9_empty_input (g : List ℕ) :
    mexFunction [] g = (some fmtErrMsg, []) ∨ mexFunction [] g = (none, g) := by
  unfold mexFunction
  dsimp only
  by_cases hm : psMagic.isPrefixOf g ∨ epsMagic.isPrefixOf g
  · right
    rw [if_neg (not_not_intro hm)]
    rfl
  · left
    rw [if_pos hm]

/-- After the reader has hit end-of-file, every remaining scan iteration
sees `feof` and stops (or the loop runs out). -/
lemma scanAhead_eof (k : ℕ) (bufs : List (List ℕ)) :
    scanAhead k bufs ⟨[], true⟩ =
      if k = 0 then (.full bufs, ⟨[], true⟩) else (.eofStop bufs, ⟨[], true⟩) := by
  cases k with
  | zero => rfl
  | succ k => rfl

/-- Characterization of the look-ahead scan on remaining input `ls`
(reader not at end-of-file): a DSC line within the `k`-line window stops
the scan; `k` available lines fill it; exactly `k - 1` available lines
also fill it, via the empty pseudo-line produced by the read that hits
end-of-file; fewer stop it at the `feof` check. -/
lemma scanAhead_spec (k : ℕ) (ls bufs : List (List ℕ)) :
    scanAhead k bufs ⟨ls, false⟩ =
      if (ls.take k).any (fun t => [37, 37].isPrefixOf t) then
        (.comment (bufs ++ ls.take ((ls.findIdx (fun t => [37, 37].isPrefixOf t)) + 1)),
         ⟨ls.drop ((ls.findIdx (fun t => [37, 37].isPrefixOf t)) + 1), false⟩)
      else if k ≤ ls.length then (.full (bufs ++ ls.take k), ⟨ls.drop k, false⟩)
      else if ls.length = k - 1 then (.full (bufs ++ ls ++ [[]]), ⟨[], true⟩)
      else (.eofStop (bufs ++ ls ++ [[]]), ⟨[], true⟩) := by
  induction k generalizing ls bufs with
  | zero =>
    simp only [List.take_zero, List.any_nil, Bool.false_eq_true, if_false,
      Nat.zero_le, if_true, List.drop_zero, List.append_nil]
    rfl
  | succ k ih =>
    cases ls with
    | nil =>
      rw [scanAhead]
      simp only [Bool.false_eq_true, if_false]
      rw [show fgetsClr ⟨[], false⟩ = ([], ⟨[], true⟩) from rfl]
      dsimp only
      rw [if_neg (by decide : ¬ [37, 37].isPrefixOf ([] : List ℕ) = true)]
      rw [scanAhead_eof]
      simp only [List.take_nil, List.any_nil, Bool.false_eq_true, if_false,
        List.length_nil]
      by_cases hk : k = 0
      · subst hk
        simp
      · rw [if_neg hk, if_neg (by omega : ¬ Nat.succ k ≤ 0),
          if_neg (by omega : ¬ (0 : ℕ) = k + 1 - 1)]
        simp
    | cons l ls' =>
      rw [scanAhead]
      simp only [Bool.false_eq_true, if_false]
      rw [show fgetsClr ⟨l :: ls', false⟩ = (l, ⟨ls', false⟩) from rfl]
      dsimp only
      by_cases hl : [37, 37].isPrefixOf l
      · rw [if_pos hl]
        have hany : ((l :: ls').take (k + 1)).any (fun t => [37, 37].isPrefixOf t) = true := by
          simp [List.take_succ_cons, hl]
        rw [if_pos hany]
        have hidx : (l :: ls').findIdx (fun t => [37, 37].isPrefixOf t) = 0 := by
          rw [List.findIdx_cons, hl]
          rfl
        rw [hidx]
        simp
      · rw [if_neg hl, ih]
        have hl' : [37, 37].isPrefixOf l = false := by
          rw [Bool.eq_false_iff]
          exact hl
        have hidx : (l :: ls').findIdx (fun t => [37, 37].isPrefixOf t) =
            (ls'.findIdx (fun t => [37, 37].isPrefixOf t)) + 1 := by
          rw [List.findIdx_cons, hl']
          rfl
        have hany : ((l :: ls').take (k + 1)).any (fun t => [37, 37].isPrefixOf t) =
            (ls'.take k).any (fun t => [37, 37].isPrefixOf t) := by
          simp [List.take_succ_cons, hl]
        rw [hany, hidx]
        by_cases h1 : (ls'.take k).any (fun t => [37, 37].isPrefixOf t)
        · rw [if_pos h1, if_pos h1]
          simp [List.take_succ_cons, List.drop_succ_cons]
        · rw [if_neg h1, if_neg h1]
          by_cases h2 : k ≤ ls'.length
          · rw [if_pos h2, if_pos (by simp; omega : k + 1 ≤ (l :: ls').length)]
            simp [List.take_succ_cons, List.drop_succ_cons]
          · rw [if_neg h2, if_neg (by simp; omega : ¬ k + 1 ≤ (l :: ls').length)]
            by_cases h3 : ls'.length = k - 1
            · rw [if_pos h3, if_pos (by simp; omega : (l :: ls').length = k + 1 - 1)]
              simp
            · rw [if_neg h3, if_neg (by simp; omega : ¬ (l :: ls').length = k + 1 - 1)]
              simp

/-! ### Pushes-extension lemmas -/

lemma NotInDictionary_pushes_ext (fromNode frm : ℕ) (y : IO_State) (z : LZW_State) :
    ∃ t, (NotInDictionary fromNode frm y z).1.pushes = y.pushes ++ t := by
  unfold NotInDictionary
  dsimp only
  split
  · split
    · exact ⟨_, by rw [asciistreamout_pushes, asciistreamout_pushes]
                   exact List.append_assoc _ _ _⟩
    · exact ⟨_, by rw [asciistreamout_pushes]⟩
  · exact ⟨_, by rw [asciistreamout_pushes]⟩

lemma LZW_pushes_ext (x : ℕ) (y : IO_State) (z : LZW_State) :
    ∃ t, (LZW x y z).1.pushes = y.pushes ++ t := by
  rw [LZW]
  split
  · exact ⟨[], by simp⟩
  · dsimp only
    split
    · exact NotInDictionary_pushes_ext _ _ _ _
    · rw [LZWloop_eq_search]
      split
      · exact ⟨[], by simp⟩
      · exact NotInDictionary_pushes_ext _ _ _ _
      · exact ⟨[], by simp⟩

lemma feedStr_pushes_ext (l : List ℕ) (s : IO_State × LZW_State) :
    ∃ t, (feedStr l s).1.pushes = s.1.pushes ++ t := by
  induction l generalizing s with
  | nil => exact ⟨[], by simp [feedStr]⟩
  | cons b rest ih =>
    obtain ⟨y, z⟩ := s
    rw [feedStr]
    split
    · exact ⟨[], by simp⟩
    · obtain ⟨t1, ht1⟩ := LZW_pushes_ext b y z
      obtain ⟨t2, ht2⟩ := ih (LZW b y z)
      exact ⟨t1 ++ t2, by rw [ht2, ht1, List.append_assoc]⟩

lemma feedFold_pushes_ext (bufs : List (List ℕ)) (s : IO_State × LZW_State) :
    ∃ t, (bufs.foldl (fun s' l' => feedStr l' s') s).1.pushes = s.1.pushes ++ t := by
  induction bufs generalizing s with
  | nil => exact ⟨[], by simp⟩
  | cons b rest ih =>
    rw [List.foldl_cons]
    obtain ⟨t1, ht1⟩ := feedStr_pushes_ext b s
    obtain ⟨t2, ht2⟩ := ih (feedStr b s)
    exact ⟨t1 ++ t2, by rw [ht2, ht1, List.append_assoc]⟩

/-- The state in which a compressed segment starts: the packer fields are
re-initialised, the literal filter line is written, CLEAR-TABLE is pushed
at width 9, and the buffered lines are fed in order. -/
def segStart (y : IO_State) (bufs : List (List ℕ)) : IO_State × LZW_State :=
  bufs.foldl (fun s l' => feedStr l' s)
    (asciistreamout CLEARTABLE
      { IO_State_Init y with out := (IO_State_Init y).out ++ filterLine }
      LZW_State_Init, LZW_State_Init)

theorem c6_lookahead (fuel : ℕ) (y : IO_State) (z : LZW_State) (l : List ℕ)
    (ls : List (List ℕ)) (hl : [37, 37].isPrefixOf l = false) :
    (mexLoop (fuel + 1) 0 y z ⟨l :: ls, false⟩ =
      if (ls.take 9).any (fun t => [37, 37].isPrefixOf t) then
        mexLoop fuel 0
          { y with out := y.out ++
              (l :: ls.take ((ls.findIdx (fun t => [37, 37].isPrefixOf t)) + 1)).flatten }
          z ⟨ls.drop ((ls.findIdx (fun t => [37, 37].isPrefixOf t)) + 1), false⟩
      else if 9 ≤ ls.length then
        mexLoop fuel 1 (segStart y (l :: ls.take 9)).1 (segStart y (l :: ls.take 9)).2
          ⟨ls.drop 9, false⟩
      else if ls.length = 8 then
        mexLoop fuel 1 (segStart y (l :: (ls ++ [[]]))).1 (segStart y (l :: (ls ++ [[]]))).2
          ⟨[], true⟩
      else { y with out := y.out ++ l ++ ls.flatten }) ∧
    ∀ bufs : List (List ℕ), ∃ ptail otail,
      (segStart y bufs).1.pushes = y.pushes ++ [(CLEARTABLE, 9)] ++ ptail ∧
      (segStart y bufs).1.out = y.out ++ filterLine ++ otail := by
  constructor
  · rw [mexLoop]
    rw [if_neg (by simp : ¬ (⟨l :: ls, false⟩ : MexIn).eofFlag = true)]
    rw [show fgetsClr ⟨l :: ls, false⟩ = (l, ⟨ls, false⟩) from rfl]
    dsimp only
    rw [if_pos rfl, if_neg (by rw [hl]; exact Bool.false_ne_true)]
    rw [show DSCGRACE - 1 = 9 from rfl, scanAhead_spec]
    by_cases h1 : (ls.take 9).any (fun t => [37, 37].isPrefixOf t)
    · rw [if_pos h1, if_pos h1]
      rfl
    · rw [if_neg h1, if_neg h1]
      by_cases h2 : 9 ≤ ls.length
      · rw [if_pos h2, if_pos h2]
        rfl
      · rw [if_neg h2, if_neg h2]
        by_cases h3 : ls.length = 8
        · rw [if_pos (show ls.length = 9 - 1 from by omega), if_pos h3]
          rfl
        · rw [if_neg (show ¬ ls.length = 9 - 1 from by omega), if_neg h3]
          dsimp only
          congr 1
          simp
  · intro bufs
    obtain ⟨pt, hpt⟩ := feedFold_pushes_ext bufs
      (asciistreamout CLEARTABLE
        { IO_State_Init y with out := (IO_State_Init y).out ++ filterLine }
        LZW_State_Init, LZW_State_Init)
    obtain ⟨ot, hot⟩ := feedFold_out_ext bufs
      (asciistreamout CLEARTABLE
        { IO_State_Init y with out := (IO_State_Init y).out ++ filterLine }
        LZW_State_Init, LZW_State_Init)
    obtain ⟨ot2, hot2⟩ := asciistreamout_out_ext CLEARTABLE
      { IO_State_Init y with out := (IO_State_Init y).out ++ filterLine } LZW_State_Init
    refine ⟨pt, ot2 ++ ot, ?_, ?_⟩
    · rw [segStart, hpt, asciistreamout_pushes]
      rfl
    · rw [segStart, hot, hot2]
      dsimp only
      rw [IO_State_Init]
      dsimp only
      simp [List.append_assoc]

def c6input : List (List ℕ) :=
  [37, 33, 80, 83, 45, 65, 100, 111, 98, 101, 45, 51, 46, 48, 10] ::
    List.replicate 9 [97, 10]

theorem c6_counterexample :
    (mexFunction c6input []).2 ≠ c6input.flatten ∧
    filterLine.isPrefixOf ((mexFunction c6input []).2.drop 15) = true := by
  constructor
  · decide
  · decide

/-! ### Witnesses -/

/-- Witness for `c3_push`: pushing code 300 at width 9 into an empty
accumulator records the pair `(300, 9)`. -/
theorem c3_push_witness :
    (asciistreamout 300 zeroIOState LZW_State_Init).pushes = [(300, 9)] := by
  have h := c3_push 300 zeroIOState LZW_State_Init (by decide) (by decide) (by decide)
    (by decide) (by decide)
  simpa using h.1

/-- Witness for `c4_widthswitch`: a state one install away from
`MaxIndex = 512` at width 9 bumps to width 10. -/
theorem c4_widthswitch_witness :
    if ({ LZW_State_Init with NextIndex := 511, MaxIndex := 512 } : LZW_State).BitSize
        = BITMAX then
      (NotInDictionary 0 0 zeroIOState
        { LZW_State_Init with NextIndex := 511, MaxIndex := 512 }).2.BitSize = 9 ∧
      (NotInDictionary 0 0 zeroIOState
        { LZW_State_Init with NextIndex := 511, MaxIndex := 512 }).2.NextIndex = 258 ∧
      (NotInDictionary 0 0 zeroIOState
        { LZW_State_Init with NextIndex := 511, MaxIndex := 512 }).2.MaxIndex = 2 ^ 9 ∧
      (NotInDictionary 0 0 zeroIOState
        { LZW_State_Init with NextIndex := 511, MaxIndex := 512 }).2.Index = (fun _ _ => 0) ∧
      (NotInDictionary 0 0 zeroIOState
        { LZW_State_Init with NextIndex := 511, MaxIndex := 512 }).2.Dictionary = (fun _ => 0) ∧
      (NotInDictionary 0 0 zeroIOState
        { LZW_State_Init with NextIndex := 511, MaxIndex := 512 }).2.CurrentIndex =
        (({ LZW_State_Init with NextIndex := 511, MaxIndex := 512 } : LZW_State).CurrentChar : ℤ) ∧
      (NotInDictionary 0 0 zeroIOState
        { LZW_State_Init with NextIndex := 511, MaxIndex := 512 }).1.pushes =
        zeroIOState.pushes ++
          [(((({ LZW_State_Init with NextIndex := 511, MaxIndex := 512 } : LZW_State).CurrentIndex).emod (2 ^ 32)).toNat, 12),
           (CLEARTABLE, 12)]
    else
      (NotInDictionary 0 0 zeroIOState
        { LZW_State_Init with NextIndex := 511, MaxIndex := 512 }).2.BitSize =
        ({ LZW_State_Init with NextIndex := 511, MaxIndex := 512 } : LZW_State).BitSize + 1 ∧
      (NotInDictionary 0 0 zeroIOState
        { LZW_State_Init with NextIndex := 511, MaxIndex := 512 }).2.MaxIndex =
        2 ^ (({ LZW_State_Init with NextIndex := 511, MaxIndex := 512 } : LZW_State).BitSize + 1) ∧
      (NotInDictionary 0 0 zeroIOState
        { LZW_State_Init with NextIndex := 511, MaxIndex := 512 }).2.NextIndex =
        ({ LZW_State_Init with NextIndex := 511, MaxIndex := 512 } : LZW_State).NextIndex + 1 ∧
      (NotInDictionary 0 0 zeroIOState
        { LZW_State_Init with NextIndex := 511, MaxIndex := 512 }).2.CurrentIndex =
        (({ LZW_State_Init with NextIndex := 511, MaxIndex := 512 } : LZW_State).CurrentChar : ℤ) ∧
      (NotInDictionary 0 0 zeroIOState
        { LZW_State_Init with NextIndex := 511, MaxIndex := 512 }).1.pushes =
        zeroIOState.pushes ++
          [(((({ LZW_State_Init with NextIndex := 511, MaxIndex := 512 } : LZW_State).CurrentIndex).emod (2 ^ 32)).toNat,
            ({ LZW_State_Init with NextIndex := 511, MaxIndex := 512 } : LZW_State).BitSize)] :=
  c4_widthswitch 0 0 zeroIOState { LZW_State_Init with NextIndex := 511, MaxIndex := 512 }
    (by decide)

/-- Witness for `c5_feed`: the first byte of a segment becomes the
prefix and nothing is emitted. -/
theorem c5_feed_witness :
    LZW 97 zeroIOState LZW_State_Init =
      (zeroIOState, { LZW_State_Init with CurrentIndex := (97 : ℤ) }) :=
  (c5_feed 97 zeroIOState LZW_State_Init (by decide)).1 rfl

/-- Witness for `c7_feedline`: a NUL-free line is fed byte by byte. -/
theorem c7_feedline_witness :
    feedStr [97, 98, 10] (zeroIOState, LZW_State_Init) =
      [97, 98, 10].foldl (fun s' b => LZW b s'.1 s'.2) (zeroIOState, LZW_State_Init) :=
  c7_feedline [97, 98, 10] (zeroIOState, LZW_State_Init) (by decide)

/-- Witness for `c6_lookahead`: a single trailing non-comment line is
copied verbatim and the encoder terminates. -/
theorem c6_lookahead_witness :
    mexLoop 2 0 zeroIOState LZW_State_Init ⟨[[97, 10]], false⟩ =
      { zeroIOState with out := zeroIOState.out ++ [97, 10] ++ ([] : List (List ℕ)).flatten } := by
  have h := (c6_lookahead 1 zeroIOState LZW_State_Init [97, 10] [] (by decide)).1
  rw [if_neg (by decide), if_neg (by decide), if_neg (by decide)] at h
  exact h

/-! ### C1: the LZW round trip.

The encoder side is the code above (`LZW`, `NotInDictionary`,
`asciistreamout` with its ghost `pushes` trace).  The decoder is not part
of the repository (decoding is done by the PostScript interpreter), so it
is modelled from the spec, at the level of the emitted code sequence. -/

/-- The segment body: feed the bytes of `B` to the coder in order. -/
def encBody (B : List ℕ) (s : IO_State × LZW_State) : IO_State × LZW_State :=
  B.foldl (fun s' b => LZW b s'.1 s'.2) s

/-- The code sequence a segment emits for byte sequence `B`: `begin`
(reset + CLEAR-TABLE), the body, and the final flush
(`NotInDictionary(0,0)` followed by END-OF-DATA), as `mexFunction`
performs them. -/
def encodeCodes (B : List ℕ) : List ℕ :=
  (let s := encBody B (asciistreamout CLEARTABLE zeroIOState LZW_State_Init, LZW_State_Init)
   let s1 := NotInDictionary 0 0 s.1 s.2
   (asciistreamout ENDOFDATA s1.1 s1.2)).pushes.map Prod.fst

/-- Modelled from the spec: the state of a reference LZW decoder with the
PostScript parameters (alphabet 256, CLEAR-TABLE 256, END-OF-DATA 257,
first dynamic code 258).  `tbl` holds the strings of codes `258, 259, …`
installed since the last clear, `prev` the previously decoded string.
The claim's bit widths (9..12, early change at `N = 2^W`) govern only the
bit-level framing of the code stream, which the code-sequence level
abstracts away. -/
structure DecState where
  tbl : List (List ℕ)
  prev : Option (List ℕ)

/-- Modelled from the spec: resolve one non-control code to a byte
string.  Codes below 256 are literal bytes; known dynamic codes are
looked up; the next free code is the deferred (KwKwK) case, decoded as
the previous string extended by its own first byte. -/
def decString (d : DecState) (c : ℕ) : Option (List ℕ) :=
  if c < 256 then some [c]
  else if h : c - 258 < d.tbl.length then some (d.tbl.get ⟨c - 258, h⟩)
  else if c - 258 = d.tbl.length then
    match d.prev with
    | some p => some (p ++ [p.headI])
    | none => none
  else none

/-- Modelled from the spec: after decoding string `s`, install the
deferred entry (previous string extended by the first byte of `s`) and
remember `s`. -/
def decInstall (d : DecState) (s : List ℕ) : DecState :=
  match d.prev with
  | none => { d with prev := some s }
  | some p => { tbl := d.tbl ++ [p ++ [s.headI]], prev := some s }

/-- Modelled from the spec: decode a code list up to (and demanding) an
END-OF-DATA code; CLEAR-TABLE resets the table. -/
def decodeLoop : DecState → List ℕ → Option (List ℕ)
  | _, [] => none
  | d, c :: cs =>
    if c = ENDOFDATA then some []
    else if c = CLEARTABLE then decodeLoop ⟨[], none⟩ cs
    else (decString d c).bind fun s =>
      (decodeLoop (decInstall d s) cs).map (fun w => s ++ w)

/-- Modelled from the spec: decode a full stream from a fresh table. -/
def decode (cs : List ℕ) : Option (List ℕ) :=
  decodeLoop ⟨[], none⟩ cs

/-- Run the decoder over a code list that contains no END-OF-DATA,
returning the final state and the decoded output. -/
def decRun : DecState → List ℕ → Option (DecState × List ℕ)
  | d, [] => some (d, [])
  | d, c :: cs =>
    if c = ENDOFDATA then none
    else if c = CLEARTABLE then decRun ⟨[], none⟩ cs
    else (decString d c).bind fun s =>
      (decRun (decInstall d s) cs).map (fun r => (r.1, s ++ r.2))

lemma decRun_append (a b : List ℕ) : ∀ d,
    decRun d (a ++ b) =
      (decRun d a).bind (fun r => (decRun r.1 b).map (fun r2 => (r2.1, r.2 ++ r2.2))) := by
  induction a with
  | nil =>
    intro d
    simp [decRun]
  | cons c cs ih =>
    intro d
    rw [List.cons_append, decRun, decRun]
    by_cases h1 : c = ENDOFDATA
    · rw [if_pos h1, if_pos h1]
      rfl
    · rw [if_neg h1, if_neg h1]
      by_cases h2 : c = CLEARTABLE
      · rw [if_pos h2, if_pos h2, ih]
      · rw [if_neg h2, if_neg h2]
        cases hds : decString d c with
        | none => rfl
        | some s =>
          simp only [Option.some_bind]
          rw [ih]
          cases hrun : decRun (decInstall d s) cs with
          | none => rfl
          | some r =>
            cases hrun2 : decRun r.1 b with
            | none => simp [hrun2]
            | some r2 => simp [hrun2, List.append_assoc]

lemma decodeLoop_of_decRun (cs : List ℕ) : ∀ d d1 δ rest,
    decRun d cs = some (d1, δ) →
    decodeLoop d (cs ++ rest) = (decodeLoop d1 rest).map (fun w => δ ++ w) := by
  induction cs with
  | nil =>
    intro d d1 δ rest h
    rw [decRun] at h
    cases h
    simp [Option.map_id']
  | cons c cs ih =>
    intro d d1 δ rest h
    rw [decRun] at h
    rw [List.cons_append, decodeLoop]
    by_cases h1 : c = ENDOFDATA
    · rw [if_pos h1] at h
      cases h
    · rw [if_neg h1] at h
      rw [if_neg h1]
      by_cases h2 : c = CLEARTABLE
      · rw [if_pos h2] at h
        rw [if_pos h2]
        exact ih _ _ _ _ h
      · rw [if_neg h2] at h
        rw [if_neg h2]
        cases hds : decString d c with
        | none =>
          rw [hds] at h
          simp only [Option.none_bind] at h
          cases h
        | some s =>
          rw [hds] at h
          simp only [Option.some_bind] at h
          cases hrun : decRun (decInstall d s) cs with
          | none =>
            rw [hrun] at h
            cases h
          | some r =>
            rw [hrun] at h
            simp only [Option.map_some'] at h
            cases h
            simp only [Option.some_bind]
            rw [ih _ _ _ _ hrun]
            cases decodeLoop r.1 rest with
            | none => rfl
            | some w => simp [List.append_assoc]

/-! ### Dictionary abstraction: trees of one-byte extensions -/

/-- The codes that may serve as prefixes: literal bytes and allocated
entries. -/
def validCode (nxt c : ℕ) : Prop := c < 256 ∨ (FIRSTFREE ≤ c ∧ c < nxt)

/-- Pointwise update of the ghost string map. -/
def updS (S : ℕ → List ℕ) (n : ℕ) (v : List ℕ) : ℕ → List ℕ :=
  fun c => if c = n then v else S c

/-- `Subtree Idx Dic nxt S q r K N`: the binary search tree rooted at `r`
(0 = empty), all of whose nodes are allocated entries representing
one-byte extensions of prefix `q`; `K` its set of terminal bytes (keys)
and `N` its set of nodes, with the BST ordering on keys. -/
inductive Subtree (Idx : ℕ → ℕ → ℕ) (Dic : ℕ → ℕ) (nxt : ℕ) (S : ℕ → List ℕ) (q : ℕ) :
    ℕ → Set ℕ → Set ℕ → Prop
  | nil : Subtree Idx Dic nxt S q 0 ∅ ∅
  | node (r : ℕ) (Kl Nl Kr Nr : Set ℕ) :
      FIRSTFREE ≤ r → r < nxt →
      S r = S q ++ [Dic r] →
      Subtree Idx Dic nxt S q (Idx LEFT r) Kl Nl →
      Subtree Idx Dic nxt S q (Idx RIGHT r) Kr Nr →
      (∀ b ∈ Kl, b < Dic r) →
      (∀ b ∈ Kr, Dic r < b) →
      Subtree Idx Dic nxt S q r (Kl ∪ {Dic r} ∪ Kr) (Nl ∪ {r} ∪ Nr)

lemma subtree_zero {Idx Dic nxt S q K N} (h : Subtree Idx Dic nxt S q 0 K N) :
    K = ∅ ∧ N = ∅ := by
  cases h with
  | nil => exact ⟨rfl, rfl⟩
  | node r Kl Nl Kr Nr h258 => exact absurd h258 (by decide)

lemma subtree_nodes {Idx Dic nxt S q r K N} (h : Subtree Idx Dic nxt S q r K N) :
    ∀ c ∈ N, FIRSTFREE ≤ c ∧ c < nxt ∧ S c = S q ++ [Dic c] ∧ Dic c ∈ K := by
  induction h with
  | nil => intro c hc; cases hc
  | node r Kl Nl Kr Nr h258 hlt hS hL hR hKl hKr ihL ihR =>
    intro c hc
    rcases hc with (hc | hc) | hc
    · obtain ⟨a, b, c', d⟩ := ihL c hc
      exact ⟨a, b, c', Or.inl (Or.inl d)⟩
    · cases hc
      exact ⟨h258, hlt, hS, Or.inl (Or.inr rfl)⟩
    · obtain ⟨a, b, c', d⟩ := ihR c hc
      exact ⟨a, b, c', Or.inr d⟩

lemma subtree_root_mem {Idx Dic nxt S q r K N} (h : Subtree Idx Dic nxt S q r K N)
    (hr : r ≠ 0) : r ∈ N := by
  cases h with
  | nil => exact absurd rfl hr
  | node r Kl Nl Kr Nr => exact Or.inl (Or.inr rfl)

/-- Frame: updates at a fresh entry (`Dic`/`S` at `n ≥ nxt`), at a link
slot outside the tree's nodes, or anywhere in the CHILD row, preserve a
subtree; the allocation bound may grow. -/
lemma subtree_frame {Idx Dic nxt S q r K N} (h : Subtree Idx Dic nxt S q r K N)
    (node' frm' n key : ℕ) (S' : ℕ → List ℕ) (nxt' : ℕ)
    (hn : nxt ≤ n) (hout : nxt ≤ nxt')
    (hS' : ∀ c, c ≠ n → S' c = S c) (hq : q ≠ n) :
    (node' = CHILD ∨ frm' ∉ N) →
    Subtree (updIdx Idx node' frm' n) (updD Dic n key) nxt' S' q r K N := by
  induction h with
  | nil => intro _; exact .nil
  | node r Kl Nl Kr Nr h258 hlt hS hL hR hKl hKr ihL ihR =>
    intro hrow
    have hrowL : node' = CHILD ∨ frm' ∉ Nl := by
      rcases hrow with hc | hfr
      · exact Or.inl hc
      · exact Or.inr (fun hm => hfr (Or.inl (Or.inl hm)))
    have hrowR : node' = CHILD ∨ frm' ∉ Nr := by
      rcases hrow with hc | hfr
      · exact Or.inl hc
      · exact Or.inr (fun hm => hfr (Or.inr hm))
    have hrn : r ≠ n := by omega
    have hL' : updIdx Idx node' frm' n LEFT r = Idx LEFT r := by
      have hcnd : ¬ (LEFT = node' ∧ r = frm') := by
        rintro ⟨h1, h2⟩
        rcases hrow with hc | hfr
        · rw [hc] at h1; exact absurd h1 (by decide)
        · exact hfr (h2 ▸ Or.inl (Or.inr rfl))
      simp only [updIdx, if_neg hcnd]
    have hR' : updIdx Idx node' frm' n RIGHT r = Idx RIGHT r := by
      have hcnd : ¬ (RIGHT = node' ∧ r = frm') := by
        rintro ⟨h1, h2⟩
        rcases hrow with hc | hfr
        · rw [hc] at h1; exact absurd h1 (by decide)
        · exact hfr (h2 ▸ Or.inl (Or.inr rfl))
      simp only [updIdx, if_neg hcnd]
    have hD' : updD Dic n key r = Dic r := by
      simp only [updD, if_neg hrn]
    have hlt' : r < nxt' := by omega
    rw [← hD']
    refine Subtree.node r Kl Nl Kr Nr h258 hlt' ?_ ?_ ?_ ?_ ?_
    · rw [hD', hS' r hrn, hS' q hq, hS]
    · rw [hL']; exact ihL hrowL
    · rw [hR']; exact ihR hrowR
    · rw [hD']; exact hKl
    · rw [hD']; exact hKr

lemma subtree_single (Idx : ℕ → ℕ → ℕ) (Dic : ℕ → ℕ) (nxt' : ℕ) (S : ℕ → List ℕ)
    (q n : ℕ) (h258 : FIRSTFREE ≤ n) (hn : n < nxt')
    (hS : S n = S q ++ [Dic n]) (hL : Idx LEFT n = 0) (hR : Idx RIGHT n = 0) :
    Subtree Idx Dic nxt' S q n {Dic n} {n} := by
  have h := @Subtree.node Idx Dic nxt' S q
    n ∅ ∅ ∅ ∅ h258 hn hS (by rw [hL]; exact Subtree.nil) (by rw [hR]; exact Subtree.nil)
    (fun b hb => absurd hb (Set.not_mem_empty b))
    (fun b hb => absurd hb (Set.not_mem_empty b))
  simpa using h

set_option maxHeartbeats 1000000 in
/-- Master search lemma: over a well-formed subtree for prefix `q`, the
pure walk finds the extension code when the current byte is a known key,
and otherwise stops at a zero link, hanging the fresh entry there yields
again a well-formed subtree with the new key and node added. -/
lemma bstSearch_spec (z : LZW_State) (S : ℕ → List ℕ) (q : ℕ)
    (hlinks : ∀ k X, z.Index k X = 0 ∨
      (X < z.Index k X ∧ FIRSTFREE ≤ z.Index k X ∧ z.Index k X < z.NextIndex))
    (hfresh : ∀ k X, z.NextIndex ≤ X → z.Index k X = 0)
    (h258n : FIRSTFREE ≤ z.NextIndex) (hq : q ≠ z.NextIndex) :
    ∀ fuel X K N, Subtree z.Index z.Dictionary z.NextIndex S q X K N →
      X ≠ 0 → z.NextIndex - X ≤ fuel →
      (z.CurrentChar ∈ K →
        ∃ X', bstSearch fuel z X = .found X' ∧ X' ∈ N ∧
          S X' = S q ++ [z.CurrentChar]) ∧
      (z.CurrentChar ∉ K →
        ∃ node frm, bstSearch fuel z X = .insertAt node frm ∧ frm ∈ N ∧
          z.Index node frm = 0 ∧ (node = LEFT ∨ node = RIGHT) ∧
          ∀ S' : ℕ → List ℕ,
            (∀ c, c ≠ z.NextIndex → S' c = S c) →
            S' z.NextIndex = S q ++ [z.CurrentChar] →
            Subtree (updIdx z.Index node frm z.NextIndex)
              (updD z.Dictionary z.NextIndex z.CurrentChar)
              (z.NextIndex + 1) S' q X (K ∪ {z.CurrentChar}) (N ∪ {z.NextIndex})) := by
  intro fuel
  induction fuel with
  | zero =>
    intro X K N h hX hfuel
    have hmem := subtree_nodes h X (subtree_root_mem h hX)
    omega
  | succ fuel ih =>
    intro X K N h hX hfuel
    cases h with
    | nil => exact absurd rfl hX
    | node r Kl Nl Kr Nr h258 hlt hS hL hR hKl hKr =>
    have hrn : X ≠ z.NextIndex := by omega
    by_cases he : z.CurrentChar = z.Dictionary X
    · constructor
      · intro _
        refine ⟨X, ?_, Or.inl (Or.inr rfl), ?_⟩
        · simp only [bstSearch, if_pos he]
        · rw [hS, he]
      · intro hk
        exact absurd (Or.inl (Or.inr he)) hk
    · by_cases hgt : z.Dictionary X < z.CurrentChar
      · have hKiff : z.CurrentChar ∈ Kl ∪ {z.Dictionary X} ∪ Kr ↔ z.CurrentChar ∈ Kr := by
          constructor
          · rintro ((hm | hm) | hm)
            · exact absurd (hKl _ hm) (by omega)
            · exact absurd hm he
            · exact hm
          · exact fun hm => Or.inr hm
        by_cases hz : z.Index RIGHT X = 0
        · have hzero := subtree_zero (by rw [hz] at hR; exact hR)
          constructor
          · intro hk
            rw [hKiff, hzero.1] at hk
            exact absurd hk (Set.not_mem_empty _)
          · intro _
            refine ⟨RIGHT, X, ?_, Or.inl (Or.inr rfl), hz, Or.inr rfl, ?_⟩
            · simp only [bstSearch, if_neg he, if_pos hgt, if_pos hz]
            · intro S' hSold hSnew
              have hrNl : X ∉ Nl := fun hm =>
                absurd (hKl _ (subtree_nodes hL X hm).2.2.2) (lt_irrefl _)
              have hDr : updD z.Dictionary z.NextIndex z.CurrentChar X = z.Dictionary X := by
                simp only [updD, if_neg hrn]
              have hDn : updD z.Dictionary z.NextIndex z.CurrentChar z.NextIndex
                  = z.CurrentChar := by
                simp [updD]
              have hLr : updIdx z.Index RIGHT X z.NextIndex LEFT X = z.Index LEFT X := by
                simp only [updIdx]
                rw [if_neg (fun hc => by exact absurd hc.1 (by decide))]
              have hRr : updIdx z.Index RIGHT X z.NextIndex RIGHT X = z.NextIndex := by
                simp [updIdx]
              have hLn : updIdx z.Index RIGHT X z.NextIndex LEFT z.NextIndex = 0 := by
                simp only [updIdx]
                rw [if_neg (fun hc => by exact absurd hc.1 (by decide))]
                exact hfresh LEFT _ le_rfl
              have hRn : updIdx z.Index RIGHT X z.NextIndex RIGHT z.NextIndex = 0 := by
                simp only [updIdx]
                rw [if_neg (fun hc => by omega)]
                exact hfresh RIGHT _ le_rfl
              have hsub : Subtree (updIdx z.Index RIGHT X z.NextIndex)
                  (updD z.Dictionary z.NextIndex z.CurrentChar) (z.NextIndex + 1) S' q
                  (updIdx z.Index RIGHT X z.NextIndex RIGHT X)
                  {z.CurrentChar} {z.NextIndex} := by
                rw [hRr]
                have := subtree_single (updIdx z.Index RIGHT X z.NextIndex)
                  (updD z.Dictionary z.NextIndex z.CurrentChar) (z.NextIndex + 1) S'
                  q z.NextIndex h258n (by omega)
                  (by rw [hDn, hSold q hq]; exact hSnew) hLn hRn
                rwa [hDn] at this
              have hleft : Subtree (updIdx z.Index RIGHT X z.NextIndex)
                  (updD z.Dictionary z.NextIndex z.CurrentChar) (z.NextIndex + 1) S' q
                  (updIdx z.Index RIGHT X z.NextIndex LEFT X) Kl Nl := by
                rw [hLr]
                exact subtree_frame hL RIGHT X z.NextIndex z.CurrentChar S'
                  (z.NextIndex + 1) le_rfl (by omega) hSold hq (Or.inr hrNl)
              have hnode := Subtree.node X Kl Nl {z.CurrentChar} {z.NextIndex}
                h258 (by omega)
                (by rw [hDr, hSold X hrn, hSold q hq]; exact hS)
                hleft hsub
                (by intro b hb; rw [hDr]; exact hKl b hb)
                (by intro b hb; rw [hDr]; cases hb; exact hgt)
              have hKeq : Kl ∪ {updD z.Dictionary z.NextIndex z.CurrentChar X}
                  ∪ {z.CurrentChar}
                  = Kl ∪ {z.Dictionary X} ∪ Kr ∪ {z.CurrentChar} := by
                rw [hDr, hzero.1]
                ext b; simp [Set.mem_union]; try tauto
              have hNeq : Nl ∪ {X} ∪ {z.NextIndex}
                  = Nl ∪ {X} ∪ Nr ∪ {z.NextIndex} := by
                rw [hzero.2]
                ext b; simp [Set.mem_union]; try tauto
              rw [hKeq, hNeq] at hnode
              exact hnode
        · obtain hz' | ⟨hgtX, h258X, hltX⟩ := hlinks RIGHT X
          · exact absurd hz' hz
          have hXne : z.Index RIGHT X ≠ 0 := hz
          have hstep : bstSearch (fuel + 1) z X = bstSearch fuel z (z.Index RIGHT X) := by
            simp only [bstSearch, if_neg he, if_pos hgt, if_neg hz]
          obtain ⟨ih1, ih2⟩ := ih (z.Index RIGHT X) Kr Nr hR (by omega) (by omega)
          constructor
          · intro hk
            obtain ⟨X', hfd, hmem, hSX⟩ := ih1 (hKiff.mp hk)
            exact ⟨X', by rw [hstep]; exact hfd, Or.inr hmem, hSX⟩
          · intro hk
            have hkr : z.CurrentChar ∉ Kr := fun hm => hk (hKiff.mpr hm)
            obtain ⟨node, frm, hfd, hmem, hslot, hkind, hupd⟩ := ih2 hkr
            refine ⟨node, frm, by rw [hstep]; exact hfd, Or.inr hmem, hslot, hkind, ?_⟩
            intro S' hSold hSnew
            have hsub := hupd S' hSold hSnew
            have hfrmNr : frm ∈ Nr := hmem
            have hfrmr : frm ≠ X := by
              intro hc
              rw [hc] at hfrmNr
              exact absurd (hKr _ (subtree_nodes hR X hfrmNr).2.2.2) (lt_irrefl _)
            have hfrmNl : frm ∉ Nl := by
              intro hm
              have h1 := (subtree_nodes hL frm hm).2.2.2
              have h2 := (subtree_nodes hR frm hfrmNr).2.2.2
              exact absurd (hKl _ h1) (by have := hKr _ h2; omega)
            have hDr : updD z.Dictionary z.NextIndex z.CurrentChar X = z.Dictionary X := by
              simp only [updD, if_neg hrn]
            have hLr : updIdx z.Index node frm z.NextIndex LEFT X = z.Index LEFT X := by
              simp only [updIdx]
              rw [if_neg (fun hc => hfrmr (hc.2.symm))]
            have hRr : updIdx z.Index node frm z.NextIndex RIGHT X = z.Index RIGHT X := by
              simp only [updIdx]
              rw [if_neg (fun hc => hfrmr (hc.2.symm))]
            have hleft : Subtree (updIdx z.Index node frm z.NextIndex)
                (updD z.Dictionary z.NextIndex z.CurrentChar) (z.NextIndex + 1) S' q
                (updIdx z.Index node frm z.NextIndex LEFT X) Kl Nl := by
              rw [hLr]
              exact subtree_frame hL node frm z.NextIndex z.CurrentChar S'
                (z.NextIndex + 1) le_rfl (by omega) hSold hq (Or.inr hfrmNl)
            have hright : Subtree (updIdx z.Index node frm z.NextIndex)
                (updD z.Dictionary z.NextIndex z.CurrentChar) (z.NextIndex + 1) S' q
                (updIdx z.Index node frm z.NextIndex RIGHT X)
                (Kr ∪ {z.CurrentChar}) (Nr ∪ {z.NextIndex}) := by
              rw [hRr]; exact hsub
            have hnode := Subtree.node X Kl Nl (Kr ∪ {z.CurrentChar}) (Nr ∪ {z.NextIndex})
              h258 (by omega)
              (by rw [hDr, hSold X hrn, hSold q hq]; exact hS)
              hleft hright
              (by intro b hb; rw [hDr]; exact hKl b hb)
              (by intro b hb
                  rw [hDr]
                  rcases hb with hb | hb
                  · exact hKr b hb
                  · cases hb; exact hgt)
            have hKeq : Kl ∪ {updD z.Dictionary z.NextIndex z.CurrentChar X}
                ∪ (Kr ∪ {z.CurrentChar})
                = Kl ∪ {z.Dictionary X} ∪ Kr ∪ {z.CurrentChar} := by
              rw [hDr]
              ext b; simp [Set.mem_union]; try tauto
            have hNeq : Nl ∪ {X} ∪ (Nr ∪ {z.NextIndex})
                = Nl ∪ {X} ∪ Nr ∪ {z.NextIndex} := by
              ext b; simp [Set.mem_union]; try tauto
            rw [hKeq, hNeq] at hnode
            exact hnode
      · have hlt2 : z.CurrentChar < z.Dictionary X := by omega
        have hKiff : z.CurrentChar ∈ Kl ∪ {z.Dictionary X} ∪ Kr ↔ z.CurrentChar ∈ Kl := by
          constructor
          · rintro ((hm | hm) | hm)
            · exact hm
            · exact absurd hm he
            · exact absurd (hKr _ hm) (by omega)
          · exact fun hm => Or.inl (Or.inl hm)
        by_cases hz : z.Index LEFT X = 0
        · have hzero := subtree_zero (by rw [hz] at hL; exact hL)
          constructor
          · intro hk
            rw [hKiff, hzero.1] at hk
            exact absurd hk (Set.not_mem_empty _)
          · intro _
            refine ⟨LEFT, X, ?_, Or.inl (Or.inr rfl), hz, Or.inl rfl, ?_⟩
            · simp only [bstSearch, if_neg he, if_neg hgt, if_pos hz]
            · intro S' hSold hSnew
              have hrNr : X ∉ Nr := fun hm =>
                absurd (hKr _ (subtree_nodes hR X hm).2.2.2) (lt_irrefl _)
              have hDr : updD z.Dictionary z.NextIndex z.CurrentChar X = z.Dictionary X := by
                simp only [updD, if_neg hrn]
              have hDn : updD z.Dictionary z.NextIndex z.CurrentChar z.NextIndex
                  = z.CurrentChar := by
                simp [updD]
              have hRr : updIdx z.Index LEFT X z.NextIndex RIGHT X = z.Index RIGHT X := by
                simp only [updIdx]
                rw [if_neg (fun hc => by exact absurd hc.1 (by decide))]
              have hLr : updIdx z.Index LEFT X z.NextIndex LEFT X = z.NextIndex := by
                simp [updIdx]
              have hRn : updIdx z.Index LEFT X z.NextIndex RIGHT z.NextIndex = 0 := by
                simp only [updIdx]
                rw [if_neg (fun hc => by exact absurd hc.1 (by decide))]
                exact hfresh RIGHT _ le_rfl
              have hLn : updIdx z.Index LEFT X z.NextIndex LEFT z.NextIndex = 0 := by
                simp only [updIdx]
                rw [if_neg (fun hc => by omega)]
                exact hfresh LEFT _ le_rfl
              have hsub : Subtree (updIdx z.Index LEFT X z.NextIndex)
                  (updD z.Dictionary z.NextIndex z.CurrentChar) (z.NextIndex + 1) S' q
                  (updIdx z.Index LEFT X z.NextIndex LEFT X)
                  {z.CurrentChar} {z.NextIndex} := by
                rw [hLr]
                have := subtree_single (updIdx z.Index LEFT X z.NextIndex)
                  (updD z.Dictionary z.NextIndex z.CurrentChar) (z.NextIndex + 1) S'
                  q z.NextIndex h258n (by omega)
                  (by rw [hDn, hSold q hq]; exact hSnew) hLn hRn
                rwa [hDn] at this
              have hright : Subtree (updIdx z.Index LEFT X z.NextIndex)
                  (updD z.Dictionary z.NextIndex z.CurrentChar) (z.NextIndex + 1) S' q
                  (updIdx z.Index LEFT X z.NextIndex RIGHT X) Kr Nr := by
                rw [hRr]
                exact subtree_frame hR LEFT X z.NextIndex z.CurrentChar S'
                  (z.NextIndex + 1) le_rfl (by omega) hSold hq (Or.inr hrNr)
              have hnode := Subtree.node X {z.CurrentChar} {z.NextIndex} Kr Nr
                h258 (by omega)
                (by rw [hDr, hSold X hrn, hSold q hq]; exact hS)
                hsub hright
                (by intro b hb; rw [hDr]; cases hb; exact hlt2)
                (by intro b hb; rw [hDr]; exact hKr b hb)
              have hKeq : ({z.CurrentChar} : Set ℕ)
                  ∪ {updD z.Dictionary z.NextIndex z.CurrentChar X} ∪ Kr
                  = Kl ∪ {z.Dictionary X} ∪ Kr ∪ {z.CurrentChar} := by
                rw [hDr, hzero.1]
                ext b; simp [Set.mem_union]; try tauto
              have hNeq : ({z.NextIndex} : Set ℕ) ∪ {X} ∪ Nr
                  = Nl ∪ {X} ∪ Nr ∪ {z.NextIndex} := by
                rw [hzero.2]
                ext b; simp [Set.mem_union]; try tauto
              rw [hKeq, hNeq] at hnode
              exact hnode
        · obtain hz' | ⟨hgtX, h258X, hltX⟩ := hlinks LEFT X
          · exact absurd hz' hz
          have hstep : bstSearch (fuel + 1) z X = bstSearch fuel z (z.Index LEFT X) := by
            simp only [bstSearch, if_neg he, if_neg hgt, if_neg hz]
          obtain ⟨ih1, ih2⟩ := ih (z.Index LEFT X) Kl Nl hL (by omega) (by omega)
          constructor
          · intro hk
            obtain ⟨X', hfd, hmem, hSX⟩ := ih1 (hKiff.mp hk)
            exact ⟨X', by rw [hstep]; exact hfd, Or.inl (Or.inl hmem), hSX⟩
          · intro hk
            have hkl : z.CurrentChar ∉ Kl := fun hm => hk (hKiff.mpr hm)
            obtain ⟨node, frm, hfd, hmem, hslot, hkind, hupd⟩ := ih2 hkl
            refine ⟨node, frm, by rw [hstep]; exact hfd, Or.inl (Or.inl hmem), hslot,
              hkind, ?_⟩
            intro S' hSold hSnew
            have hsub := hupd S' hSold hSnew
            have hfrmNl : frm ∈ Nl := hmem
            have hfrmr : frm ≠ X := by
              intro hc
              rw [hc] at hfrmNl
              exact absurd (hKl _ (subtree_nodes hL X hfrmNl).2.2.2) (lt_irrefl _)
            have hfrmNr : frm ∉ Nr := by
              intro hm
              have h1 := (subtree_nodes hL frm hfrmNl).2.2.2
              have h2 := (subtree_nodes hR frm hm).2.2.2
              exact absurd (hKl _ h1) (by have := hKr _ h2; omega)
            have hDr : updD z.Dictionary z.NextIndex z.CurrentChar X = z.Dictionary X := by
              simp only [updD, if_neg hrn]
            have hLr : updIdx z.Index node frm z.NextIndex LEFT X = z.Index LEFT X := by
              simp only [updIdx]
              rw [if_neg (fun hc => hfrmr (hc.2.symm))]
            have hRr : updIdx z.Index node frm z.NextIndex RIGHT X = z.Index RIGHT X := by
              simp only [updIdx]
              rw [if_neg (fun hc => hfrmr (hc.2.symm))]
            have hleft : Subtree (updIdx z.Index node frm z.NextIndex)
                (updD z.Dictionary z.NextIndex z.CurrentChar) (z.NextIndex + 1) S' q
                (updIdx z.Index node frm z.NextIndex LEFT X)
                (Kl ∪ {z.CurrentChar}) (Nl ∪ {z.NextIndex}) := by
              rw [hLr]; exact hsub
            have hright : Subtree (updIdx z.Index node frm z.NextIndex)
                (updD z.Dictionary z.NextIndex z.CurrentChar) (z.NextIndex + 1) S' q
                (updIdx z.Index node frm z.NextIndex RIGHT X) Kr Nr := by
              rw [hRr]
              exact subtree_frame hR node frm z.NextIndex z.CurrentChar S'
                (z.NextIndex + 1) le_rfl (by omega) hSold hq (Or.inr hfrmNr)
            have hnode := Subtree.node X (Kl ∪ {z.CurrentChar}) (Nl ∪ {z.NextIndex}) Kr Nr
              h258 (by omega)
              (by rw [hDr, hSold X hrn, hSold q hq]; exact hS)
              hleft hright
              (by intro b hb
                  rw [hDr]
                  rcases hb with hb | hb
                  · exact hKl b hb
                  · cases hb; exact hlt2)
              (by intro b hb; rw [hDr]; exact hKr b hb)
            have hKeq : Kl ∪ {z.CurrentChar}
                ∪ {updD z.Dictionary z.NextIndex z.CurrentChar X} ∪ Kr
                = Kl ∪ {z.Dictionary X} ∪ Kr ∪ {z.CurrentChar} := by
              rw [hDr]
              ext b
              constructor
              · rintro (((hb | hb) | hb) | hb)
                · exact Or.inl (Or.inl (Or.inl hb))
                · exact Or.inr hb
                · exact Or.inl (Or.inl (Or.inr hb))
                · exact Or.inl (Or.inr hb)
              · rintro (((hb | hb) | hb) | hb)
                · exact Or.inl (Or.inl (Or.inl hb))
                · exact Or.inl (Or.inr hb)
                · exact Or.inr hb
                · exact Or.inl (Or.inl (Or.inr hb))
            have hNeq : Nl ∪ {z.NextIndex} ∪ {X} ∪ Nr
                = Nl ∪ {X} ∪ Nr ∪ {z.NextIndex} := by
              ext b
              constructor
              · rintro (((hb | hb) | hb) | hb)
                · exact Or.inl (Or.inl (Or.inl hb))
                · exact Or.inr hb
                · exact Or.inl (Or.inl (Or.inr hb))
                · exact Or.inl (Or.inr hb)
              · rintro (((hb | hb) | hb) | hb)
                · exact Or.inl (Or.inl (Or.inl hb))
                · exact Or.inl (Or.inr hb)
                · exact Or.inr hb
                · exact Or.inl (Or.inl (Or.inr hb))
            rw [hKeq, hNeq] at hnode
            exact hnode

lemma FIRSTFREE_eq : FIRSTFREE = 258 := rfl

lemma append_singleton_inj {l1 l2 : List ℕ} {a b : ℕ}
    (h : l1 ++ [a] = l2 ++ [b]) : l1 = l2 ∧ a = b := by
  have h' := congrArg List.reverse h
  simp only [List.reverse_append, List.reverse_singleton, List.singleton_append,
    List.cons.injEq] at h'
  exact ⟨List.reverse_injective h'.2, h'.1⟩

/-- Global well-formedness of the LZW dictionary arrays relative to the
ghost map `S` assigning each code its decoded string. -/
structure DictOk (Idx : ℕ → ℕ → ℕ) (Dic : ℕ → ℕ) (nxt : ℕ) (S : ℕ → List ℕ) : Prop where
  links : ∀ k X, Idx k X = 0 ∨ (X < Idx k X ∧ FIRSTFREE ≤ Idx k X ∧ Idx k X < nxt)
  fresh : ∀ k X, nxt ≤ X → Idx k X = 0
  nxt_ge : FIRSTFREE ≤ nxt
  bytes : ∀ b, b < 256 → S b = [b]
  nonnil : ∀ c, validCode nxt c → S c ≠ []
  parent : ∀ c, FIRSTFREE ≤ c → c < nxt → ∃ p, validCode nxt p ∧ S c = S p ++ [Dic c]
  inj : ∀ c c', validCode nxt c → validCode nxt c' → S c = S c' → c = c'
  tree : ∀ p, validCode nxt p → ∃ K N, Subtree Idx Dic nxt S p (Idx CHILD p) K N ∧
    ∀ c, FIRSTFREE ≤ c → c < nxt → ∀ b, S c = S p ++ [b] → b ∈ K

lemma DictOk_init (S : ℕ → List ℕ) (hb : ∀ b, b < 256 → S b = [b]) :
    DictOk (fun _ _ => 0) (fun _ => 0) FIRSTFREE S where
  links := fun _ _ => Or.inl rfl
  fresh := fun _ _ _ => rfl
  nxt_ge := le_rfl
  bytes := hb
  nonnil := by
    intro c hc
    have hc' : c < 256 := by
      rcases hc with h | h
      · exact h
      · rw [FIRSTFREE_eq] at h; omega
    rw [hb c hc']
    simp
  parent := by
    intro c h1 h2
    rw [FIRSTFREE_eq] at h1 h2
    omega
  inj := by
    intro c c' hc hc' hS
    have h1 : c < 256 := by
      rcases hc with h | h
      · exact h
      · rw [FIRSTFREE_eq] at h; omega
    have h2 : c' < 256 := by
      rcases hc' with h | h
      · exact h
      · rw [FIRSTFREE_eq] at h; omega
    rw [hb c h1, hb c' h2] at hS
    exact List.singleton_injective hS
  tree := by
    intro p _
    refine ⟨∅, ∅, Subtree.nil, ?_⟩
    intro c h1 h2
    rw [FIRSTFREE_eq] at h1 h2
    omega

/-- Installing the fresh entry `nxt` (byte `x` under prefix `p`), either at
`CHILD p` or at a zero `LEFT`/`RIGHT` slot of a node of `p`'s tree,
preserves dictionary well-formedness. -/
lemma DictOk_install (Idx : ℕ → ℕ → ℕ) (Dic : ℕ → ℕ) (nxt : ℕ) (S S' : ℕ → List ℕ)
    (hD : DictOk Idx Dic nxt S) (p x node frm : ℕ) (K N : Set ℕ)
    (hpv : validCode nxt p) (hxK : x ∉ K)
    (htree : Subtree Idx Dic nxt S p (Idx CHILD p) K N)
    (hcomp : ∀ c, FIRSTFREE ≤ c → c < nxt → ∀ b, S c = S p ++ [b] → b ∈ K)
    (hframe : (node = CHILD ∧ frm = p) ∨ ((node = LEFT ∨ node = RIGHT) ∧ frm ∈ N))
    (hS'old : ∀ c, c ≠ nxt → S' c = S c)
    (hS'new : S' nxt = S p ++ [x])
    (hupd : Subtree (updIdx Idx node frm nxt) (updD Dic nxt x) (nxt + 1) S' p
      (updIdx Idx node frm nxt CHILD p) (K ∪ {x}) (N ∪ {nxt})) :
    DictOk (updIdx Idx node frm nxt) (updD Dic nxt x) (nxt + 1) S' := by
  have hpn : p ≠ nxt := by
    have := hD.nxt_ge
    rcases hpv with h | h
    · rw [FIRSTFREE_eq] at this; omega
    · omega
  have hfrm_lt : frm < nxt := by
    rcases hframe with ⟨_, hf⟩ | ⟨_, hf⟩
    · subst hf
      have := hD.nxt_ge
      rcases hpv with h | h
      · rw [FIRSTFREE_eq] at this; omega
      · omega
    · exact (subtree_nodes htree frm hf).2.1
  have hvalid_lift : ∀ c, validCode nxt c → validCode (nxt + 1) c := by
    intro c hc
    rcases hc with h | h
    · exact Or.inl h
    · exact Or.inr ⟨h.1, by omega⟩
  have hvalid_down : ∀ c, validCode (nxt + 1) c → c ≠ nxt → validCode nxt c := by
    intro c hc hne
    rcases hc with h | h
    · exact Or.inl h
    · exact Or.inr ⟨h.1, by omega⟩
  have hSp_ne : S p ≠ [] := hD.nonnil p hpv
  have hnew_not_old : ∀ c, validCode nxt c → S c ≠ S p ++ [x] := by
    intro c hc hEq
    rcases hc with h | h
    · rw [hD.bytes c h] at hEq
      have hlen := congrArg List.length hEq
      simp only [List.length_singleton, List.length_append] at hlen
      exact hSp_ne (List.length_eq_zero.mp (by omega))
    · obtain ⟨q', hq'v, hq'e⟩ := hD.parent c h.1 h.2
      rw [hq'e] at hEq
      obtain ⟨hq'p, hbx⟩ := append_singleton_inj hEq
      have := hD.inj q' p hq'v hpv hq'p
      subst this
      exact hxK (hbx ▸ hcomp c h.1 h.2 (Dic c) hq'e)
  refine ⟨?_, ?_, ?_, ?_, ?_, ?_, ?_, ?_⟩
  · intro k X
    by_cases hc : k = node ∧ X = frm
    · simp only [updIdx, if_pos hc]
      refine Or.inr ⟨?_, hD.nxt_ge, by omega⟩
      rw [hc.2]
      exact hfrm_lt
    · simp only [updIdx, if_neg hc]
      rcases hD.links k X with h | h
      · exact Or.inl h
      · exact Or.inr ⟨h.1, h.2.1, by omega⟩
  · intro k X hX
    have hc : ¬ (k = node ∧ X = frm) := fun hc => by omega
    simp only [updIdx, if_neg hc]
    exact hD.fresh k X (by omega)
  · have := hD.nxt_ge; omega
  · intro b hb
    have hbn : b ≠ nxt := by
      have := hD.nxt_ge; rw [FIRSTFREE_eq] at this; omega
    rw [hS'old b hbn]
    exact hD.bytes b hb
  · intro c hc
    by_cases hcn : c = nxt
    · subst hcn
      rw [hS'new]
      simp
    · rw [hS'old c hcn]
      exact hD.nonnil c (hvalid_down c hc hcn)
  · intro c h1 h2
    by_cases hcn : c = nxt
    · subst hcn
      refine ⟨p, hvalid_lift p hpv, ?_⟩
      have hDn : updD Dic c x c = x := by simp [updD]
      rw [hDn, hS'new, hS'old p hpn]
    · have h2' : c < nxt := by omega
      obtain ⟨q', hq'v, hq'e⟩ := hD.parent c h1 h2'
      have hq'n : q' ≠ nxt := by
        have := hD.nxt_ge
        rcases hq'v with h | h
        · rw [FIRSTFREE_eq] at this; omega
        · omega
      refine ⟨q', hvalid_lift q' hq'v, ?_⟩
      have hDc : updD Dic nxt x c = Dic c := by simp [updD, hcn]
      rw [hDc, hS'old c hcn, hS'old q' hq'n]
      exact hq'e
  · intro c c' hc hc' hS
    by_cases hcn : c = nxt <;> by_cases hcn' : c' = nxt
    · rw [hcn, hcn']
    · subst hcn
      rw [hS'new, hS'old c' hcn'] at hS
      exact absurd hS.symm (hnew_not_old c' (hvalid_down c' hc' hcn'))
    · subst hcn'
      rw [hS'new, hS'old c hcn] at hS
      exact absurd hS (hnew_not_old c (hvalid_down c hc hcn))
    · rw [hS'old c hcn, hS'old c' hcn'] at hS
      exact hD.inj c c' (hvalid_down c hc hcn) (hvalid_down c' hc' hcn') hS
  · intro q hq
    by_cases hqn : q = nxt
    · subst hqn
      have hroot : updIdx Idx node frm q CHILD q = 0 := by
        have hc : ¬ (CHILD = node ∧ q = frm) := fun hc => by omega
        simp only [updIdx, if_neg hc]
        exact hD.fresh CHILD q le_rfl
      refine ⟨∅, ∅, by rw [hroot]; exact Subtree.nil, ?_⟩
      intro c h1 h2 b hb
      exfalso
      by_cases hcn : c = q
      · subst hcn
        rw [hS'new] at hb
        have hlen := congrArg List.length hb
        simp [hS'new] at hlen
      · have h2' : c < q := by omega
        rw [hS'old c hcn, hS'new] at hb
        obtain ⟨q', hq'v, hq'e⟩ := hD.parent c h1 h2'
        rw [hq'e] at hb
        obtain ⟨hq'eq, hbd⟩ := append_singleton_inj hb
        exact hnew_not_old q' hq'v hq'eq
    · have hqv : validCode nxt q := hvalid_down q hq hqn
      by_cases hqp : q = p
      · subst hqp
        refine ⟨K ∪ {x}, N ∪ {nxt}, hupd, ?_⟩
        intro c h1 h2 b hb
        by_cases hcn : c = nxt
        · subst hcn
          rw [hS'new, hS'old q hqn] at hb
          have := List.append_cancel_left hb
          have hbx : x = b := by injection this
          exact Or.inr (by rw [← hbx]; rfl)
        · rw [hS'old c hcn, hS'old q hqn] at hb
          exact Or.inl (hcomp c h1 (by omega) b hb)
      · obtain ⟨Kq, Nq, htq, hcq⟩ := hD.tree q hqv
        have hrow : node = CHILD ∨ frm ∉ Nq := by
          rcases hframe with ⟨hn, _⟩ | ⟨hn, hf⟩
          · exact Or.inl hn
          · refine Or.inr (fun hm => ?_)
            have h1 := (subtree_nodes htq frm hm).2.2.1
            have h2 := (subtree_nodes htree frm hf).2.2.1
            rw [h1] at h2
            obtain ⟨hqe, _⟩ := append_singleton_inj h2
            exact hqp (hD.inj q p hqv hpv hqe)
        have hroot : updIdx Idx node frm nxt CHILD q = Idx CHILD q := by
          have hc : ¬ (CHILD = node ∧ q = frm) := by
            rintro ⟨hc1, hc2⟩
            rcases hframe with ⟨_, hf⟩ | ⟨hn, _⟩
            · exact hqp (hc2.trans hf)
            · rcases hn with hn | hn
              · rw [hn] at hc1; exact absurd hc1 (by decide)
              · rw [hn] at hc1; exact absurd hc1 (by decide)
          simp only [updIdx, if_neg hc]
        refine ⟨Kq, Nq, ?_, ?_⟩
        · rw [hroot]
          exact subtree_frame htq node frm nxt x S' (nxt + 1) le_rfl (by omega)
            hS'old hqn hrow
        · intro c h1 h2 b hb
          by_cases hcn : c = nxt
          · subst hcn
            exfalso
            rw [hS'new, hS'old q hqn] at hb
            obtain ⟨hqe, _⟩ := append_singleton_inj hb
            exact hqp (hD.inj p q hpv hqv hqe).symm
          · rw [hS'old c hcn, hS'old q hqn] at hb
            exact hcq c h1 (by omega) b hb

lemma NotInDictionary_width (fromNode frm : ℕ) (y : IO_State) (z : LZW_State)
    (hnr : ¬(z.NextIndex + 1 = z.MaxIndex ∧ z.BitSize = BITMAX)) :
    ((NotInDictionary fromNode frm y z).2.BitSize,
      (NotInDictionary fromNode frm y z).2.MaxIndex)
      = if z.NextIndex + 1 = z.MaxIndex then (z.BitSize + 1, 2 ^ (z.BitSize + 1))
        else (z.BitSize, z.MaxIndex) := by
  unfold NotInDictionary
  dsimp only
  by_cases ht : z.NextIndex + 1 = z.MaxIndex
  · rw [if_pos ht, if_neg (fun hB => hnr ⟨ht, hB⟩), if_pos ht]
  · rw [if_neg ht, if_neg ht]

lemma NotInDictionary_reset (fromNode frm : ℕ) (y : IO_State) (z : LZW_State)
    (h1 : z.NextIndex + 1 = z.MaxIndex) (h2 : z.BitSize = BITMAX) :
    (NotInDictionary fromNode frm y z).2 =
      { LZW_State_Init with CurrentIndex := (z.CurrentChar : ℤ) } ∧
    (NotInDictionary fromNode frm y z).1.pushes =
      y.pushes ++ [((z.CurrentIndex.emod (2 ^ 32)).toNat, z.BitSize),
        (CLEARTABLE, z.BitSize)] := by
  unfold NotInDictionary
  dsimp only
  rw [if_pos h1, if_pos h2]
  refine ⟨rfl, ?_⟩
  rw [asciistreamout_pushes, asciistreamout_pushes]
  simp

lemma getD_append_last (l : List (List ℕ)) (e : List ℕ) (i : ℕ) (hi : i < l.length + 1) :
    (l ++ [e]).getD i [] = if i < l.length then l.getD i [] else e := by
  by_cases h : i < l.length
  · rw [if_pos h]
    rw [List.getD_eq_getElem _ _ (by simp; omega), List.getD_eq_getElem _ _ h]
    exact List.getElem_append_left h
  · rw [if_neg h]
    have hieq : i = l.length := by omega
    subst hieq
    rw [List.getD_eq_getElem _ _ (by simp)]
    rw [List.getElem_append_right (by omega)]
    simp

lemma getD_get (l : List (List ℕ)) (i : ℕ) (h : i < l.length) :
    l.get ⟨i, h⟩ = l.getD i [] := by
  rw [List.getD_eq_getElem _ _ h, List.get_eq_getElem]

/-- Decoder synchronisation: the decoder state `d` tracks the encoder
dictionary exactly one entry behind (the deferred install), and `p` is
the encoder's pending prefix code. -/
structure Sync (z : LZW_State) (S : ℕ → List ℕ) (d : DecState) (p : ℕ) : Prop where
  dict : DictOk z.Index z.Dictionary z.NextIndex S
  pvalid : validCode z.NextIndex p
  width_eq : z.MaxIndex = 2 ^ z.BitSize
  width_ge : BITMIN ≤ z.BitSize
  width_le : z.BitSize ≤ BITMAX
  next_lt : z.NextIndex < z.MaxIndex
  lag : (d.prev = none ∧ d.tbl = [] ∧ z.NextIndex = FIRSTFREE ∧ p < 256) ∨
    (∃ P, d.prev = some P ∧ P ≠ [] ∧
      d.tbl.length + 1 + FIRSTFREE = z.NextIndex ∧
      (∀ i : ℕ, i < d.tbl.length → d.tbl.getD i [] = S (FIRSTFREE + i)) ∧
      S (z.NextIndex - 1) = P ++ [(S p).headI])

lemma headI_append_ne {P : List ℕ} (hP : P ≠ []) (l : List ℕ) :
    (P ++ l).headI = P.headI := by
  cases P with
  | nil => exact absurd rfl hP
  | cons a t => rfl

lemma Sync.decode_prefix {z : LZW_State} {S : ℕ → List ℕ} {d : DecState} {p : ℕ}
    (h : Sync z S d p) : decString d p = some (S p) := by
  by_cases hp : p < 256
  · rw [decString, if_pos hp, h.dict.bytes p hp]
  · have hpe : FIRSTFREE ≤ p ∧ p < z.NextIndex := by
      rcases h.pvalid with hv | hv
      · exact absurd hv hp
      · exact hv
    rcases h.lag with ⟨_, htbl, hnxt, _⟩ | ⟨P, hprev, hPne, hlen, htbl, hlast⟩
    · rw [FIRSTFREE_eq] at hpe hnxt
      omega
    · rw [FIRSTFREE_eq] at hpe hlen
      by_cases hlt : p - 258 < d.tbl.length
      · rw [decString, if_neg hp]
        rw [dif_pos hlt]
        rw [getD_get d.tbl (p - 258) hlt, htbl (p - 258) hlt]
        rw [FIRSTFREE_eq, show 258 + (p - 258) = p by omega]
      · have hpeq : p - 258 = d.tbl.length := by omega
        have hplast : p = z.NextIndex - 1 := by omega
        rw [decString, if_neg hp, dif_neg hlt, if_pos hpeq, hprev]
        rw [← hplast] at hlast
        have hhead : (S p).headI = P.headI := by
          conv_lhs => rw [hlast]
          exact headI_append_ne hPne _
        rw [hlast, hhead]

lemma BITMAX_eq : BITMAX = 12 := rfl
lemma BITMIN_eq : BITMIN = 9 := rfl
lemma CLEARTABLE_eq : CLEARTABLE = 256 := rfl
lemma ENDOFDATA_eq : ENDOFDATA = 257 := rfl

/-- After a non-resetting install of byte `x` under prefix `p`, the
decoder's deferred install restores synchronisation with new prefix `x`. -/
lemma Sync.install_step {z : LZW_State} {S : ℕ → List ℕ} {d : DecState} {p : ℕ}
    (hs : Sync z S d p) (x node frm : ℕ) (hx : x < 256)
    (K N : Set ℕ)
    (htree : Subtree z.Index z.Dictionary z.NextIndex S p (z.Index CHILD p) K N)
    (hcomp : ∀ c, FIRSTFREE ≤ c → c < z.NextIndex → ∀ b,
      S c = S p ++ [b] → b ∈ K)
    (hxK : x ∉ K)
    (hframe : (node = CHILD ∧ frm = p) ∨ ((node = LEFT ∨ node = RIGHT) ∧ frm ∈ N))
    (hupd : Subtree (updIdx z.Index node frm z.NextIndex)
      (updD z.Dictionary z.NextIndex x) (z.NextIndex + 1)
      (updS S z.NextIndex (S p ++ [x])) p
      (updIdx z.Index node frm z.NextIndex CHILD p) (K ∪ {x}) (N ∪ {z.NextIndex}))
    (z' : LZW_State)
    (hI : z'.Index = updIdx z.Index node frm z.NextIndex)
    (hD : z'.Dictionary = updD z.Dictionary z.NextIndex x)
    (hN : z'.NextIndex = z.NextIndex + 1)
    (hW : (z'.BitSize, z'.MaxIndex) =
      if z.NextIndex + 1 = z.MaxIndex then (z.BitSize + 1, 2 ^ (z.BitSize + 1))
      else (z.BitSize, z.MaxIndex))
    (hnr : ¬(z.NextIndex + 1 = z.MaxIndex ∧ z.BitSize = BITMAX)) :
    Sync z' (updS S z.NextIndex (S p ++ [x])) (decInstall d (S p)) x := by
  have hS'old : ∀ c, c ≠ z.NextIndex → updS S z.NextIndex (S p ++ [x]) c = S c := by
    intro c hc
    simp [updS, hc]
  have hS'new : updS S z.NextIndex (S p ++ [x]) z.NextIndex = S p ++ [x] := by
    simp [updS]
  have hxn : x ≠ z.NextIndex := by
    have := hs.dict.nxt_ge
    rw [FIRSTFREE_eq] at this
    omega
  have hSx : updS S z.NextIndex (S p ++ [x]) x = [x] := by
    rw [hS'old x hxn]
    exact hs.dict.bytes x hx
  have hSpne : S p ≠ [] := hs.dict.nonnil p hs.pvalid
  refine ⟨?_, Or.inl hx, ?_, ?_, ?_, ?_, ?_⟩
  · rw [hI, hD, hN]
    exact DictOk_install z.Index z.Dictionary z.NextIndex S _ hs.dict p x node frm K N
      hs.pvalid hxK htree hcomp hframe hS'old hS'new hupd
  · by_cases ht : z.NextIndex + 1 = z.MaxIndex
    · rw [if_pos ht] at hW
      injection hW with h1 h2
      rw [h1, h2]
    · rw [if_neg ht] at hW
      injection hW with h1 h2
      rw [h1, h2]
      exact hs.width_eq
  · by_cases ht : z.NextIndex + 1 = z.MaxIndex
    · rw [if_pos ht] at hW
      injection hW with h1 _
      rw [h1]
      have := hs.width_ge
      omega
    · rw [if_neg ht] at hW
      injection hW with h1 _
      rw [h1]
      exact hs.width_ge
  · by_cases ht : z.NextIndex + 1 = z.MaxIndex
    · rw [if_pos ht] at hW
      injection hW with h1 _
      rw [h1]
      have hex : z.BitSize ≠ BITMAX := fun hc => hnr ⟨ht, hc⟩
      have := hs.width_le
      rw [BITMAX_eq] at *
      omega
    · rw [if_neg ht] at hW
      injection hW with h1 _
      rw [h1]
      exact hs.width_le
  · by_cases ht : z.NextIndex + 1 = z.MaxIndex
    · rw [if_pos ht] at hW
      injection hW with h1 h2
      rw [hN, h2, ht]
      have h3 : z.MaxIndex = 2 ^ z.BitSize := hs.width_eq
      rw [h3]
      have h4 : (2:ℕ) ^ (z.BitSize + 1) = 2 * 2 ^ z.BitSize := by
        rw [pow_succ]
        ring
      have h5 : 1 ≤ (2:ℕ) ^ z.BitSize := Nat.one_le_two_pow
      omega
    · rw [if_neg ht] at hW
      injection hW with _ h2
      rw [hN, h2]
      have := hs.next_lt
      omega
  · rcases hs.lag with ⟨hprev, htbl, hnxt, _⟩ | ⟨P, hprev, hPne, hlen, htbl, hlast⟩
    · refine Or.inr ⟨S p, ?_, hSpne, ?_, ?_, ?_⟩
      · simp [decInstall, hprev]
      · simp [decInstall, hprev, htbl, hN, hnxt]
        omega
      · intro i hi
        exfalso
        simp [decInstall, hprev, htbl] at hi
      · simp only [hN, Nat.add_sub_cancel]
        rw [hS'new, hSx]
        simp
    · refine Or.inr ⟨S p, ?_, hSpne, ?_, ?_, ?_⟩
      · simp [decInstall, hprev]
      · simp only [decInstall, hprev]
        simp only [List.length_append, List.length_singleton]
        omega
      · intro i hi
        have hd' : decInstall d (S p)
            = ⟨d.tbl ++ [P ++ [(S p).headI]], some (S p)⟩ := by
          simp [decInstall, hprev]
        rw [hd'] at hi ⊢
        simp only [List.length_append, List.length_singleton] at hi
        rw [getD_append_last _ _ _ hi]
        by_cases hil : i < d.tbl.length
        · rw [if_pos hil, htbl i hil]
          rw [hS'old]
          have := hs.dict.nxt_ge
          rw [FIRSTFREE_eq] at *
          omega
        · rw [if_neg hil]
          have hieq : i = d.tbl.length := by omega
          have hnth : FIRSTFREE + i = z.NextIndex - 1 := by
            rw [FIRSTFREE_eq] at *
            omega
          rw [hnth, hS'old (z.NextIndex - 1) (by
            have := hs.dict.nxt_ge
            rw [FIRSTFREE_eq] at this
            omega)]
          exact hlast.symm
      · simp only [hN, Nat.add_sub_cancel]
        rw [hS'new, hSx]
        simp [decInstall, hprev]

lemma TABLESIZE_eq : TABLESIZE = 4096 := rfl

lemma Sync_reset (S : ℕ → List ℕ) (x : ℕ) (hx : x < 256)
    (hb : ∀ b, b < 256 → S b = [b]) (t : ℤ) :
    Sync { LZW_State_Init with CurrentIndex := t } S ⟨[], none⟩ x := by
  refine ⟨DictOk_init S hb, Or.inl hx, rfl, le_rfl, ?_, ?_, ?_⟩
  · show BITMIN ≤ BITMAX
    decide
  · show FIRSTFREE < 2 ^ BITMIN
    decide
  · exact Or.inl ⟨rfl, rfl, rfl, hx⟩

set_option maxHeartbeats 1000000 in
/-- One coder feed step, mirrored by the decoder: the codes pushed while
feeding byte `x` are consumed by `decRun`, conserving the decoded text
plus the pending prefix string. -/
lemma feed_step (x : ℕ) (hx : x < 256) (y : IO_State) (z : LZW_State)
    (d : DecState) (p : ℕ) (S : ℕ → List ℕ)
    (hs : Sync z S d p) (hp : z.CurrentIndex = (p : ℤ)) :
    ∃ (cs : List ℕ) (d' : DecState) (p' : ℕ) (S' : ℕ → List ℕ) (δ : List ℕ),
      (LZW x y z).1.pushes.map Prod.fst = y.pushes.map Prod.fst ++ cs ∧
      (LZW x y z).2.CurrentIndex = (p' : ℤ) ∧
      decRun d cs = some (d', δ) ∧
      δ ++ S' p' = S p ++ [x] ∧
      Sync (LZW x y z).2 S' d' p' := by
  have hpne : z.CurrentIndex ≠ -1 := by rw [hp]; omega
  have htn : z.CurrentIndex.toNat = p := by rw [hp]; simp
  have hnxt4096 : z.NextIndex < 4096 := by
    have h1 : z.MaxIndex ≤ 2 ^ BITMAX := by
      rw [hs.width_eq]
      exact Nat.pow_le_pow_right (by norm_num) hs.width_le
    have h2 := hs.next_lt
    have h3 : (2:ℕ) ^ BITMAX = 4096 := by rw [BITMAX_eq]; norm_num
    omega
  have hnxt258 := hs.dict.nxt_ge
  rw [FIRSTFREE_eq] at hnxt258
  have hp4096 : p < 4096 := by
    rcases hs.pvalid with h | h
    · omega
    · omega
  have hemod : (z.CurrentIndex.emod (2 ^ 32)).toNat = p := by
    rw [hp]
    have h1 : ((p : ℤ)) % (2 ^ 32) = (p : ℤ) := by omega
    rw [show ((p : ℤ)).emod (2 ^ 32) = ((p : ℤ)) % (2 ^ 32) from rfl, h1]
    simp
  have hxn : x ≠ z.NextIndex := by omega
  have hpn : p ≠ z.NextIndex := by
    rcases hs.pvalid with h | h
    · omega
    · omega
  have hSpne : S p ≠ [] := hs.dict.nonnil p hs.pvalid
  have hS'old : ∀ c, c ≠ z.NextIndex → updS S z.NextIndex (S p ++ [x]) c = S c := by
    intro c hc
    simp [updS, hc]
  have hS'new : updS S z.NextIndex (S p ++ [x]) z.NextIndex = S p ++ [x] := by
    simp [updS]
  have hSx : updS S z.NextIndex (S p ++ [x]) x = [x] := by
    rw [hS'old x hxn]
    exact hs.dict.bytes x hx
  have hSxb : S x = [x] := hs.dict.bytes x hx
  have hpv' : p < 256 ∨ 258 ≤ p ∧ p < z.NextIndex := by
    rcases hs.pvalid with h | h
    · exact Or.inl h
    · rw [FIRSTFREE_eq] at h
      exact Or.inr h
  have hp1 : p ≠ ENDOFDATA := by
    rw [ENDOFDATA_eq]
    rcases hpv' with h | h
    · omega
    · omega
  have hp2 : p ≠ CLEARTABLE := by
    rw [CLEARTABLE_eq]
    rcases hpv' with h | h
    · omega
    · omega
  have hdecp : decString d p = some (S p) := Sync.decode_prefix hs
  have hdec1 : decRun d [p] = some (decInstall d (S p), S p) := by
    rw [decRun, if_neg hp1, if_neg hp2, hdecp]
    simp only [Option.some_bind]
    rw [decRun]
    simp
  have hdec2 : decRun d [p, CLEARTABLE] = some (⟨[], none⟩, S p) := by
    rw [decRun, if_neg hp1, if_neg hp2, hdecp]
    simp only [Option.some_bind]
    rw [decRun, if_neg (by decide), if_pos rfl, decRun]
    simp
  have hL0 : LZW x y z = (if z.Index CHILD p = 0
      then NotInDictionary CHILD p y { z with CurrentChar := x }
      else LZWloop TABLESIZE (z.Index CHILD p) y { z with CurrentChar := x }) := by
    rw [LZW, if_neg hpne]
    dsimp only
    rw [htn]
  obtain ⟨K, N, htree, hcomp⟩ := hs.dict.tree p hs.pvalid
  by_cases hroot : z.Index CHILD p = 0
  · -- the prefix has no extension tree: root install at CHILD[p]
    have hKN := subtree_zero (by rw [hroot] at htree; exact htree)
    have hxK : x ∉ K := by rw [hKN.1]; exact Set.not_mem_empty x
    have hLZW : LZW x y z =
        NotInDictionary CHILD p y { z with CurrentChar := x } := by
      rw [hL0, if_pos hroot]
    have hrootupd : updIdx z.Index CHILD p z.NextIndex CHILD p = z.NextIndex := by
      simp [updIdx]
    have hDn : updD z.Dictionary z.NextIndex x z.NextIndex = x := by
      simp [updD]
    have hupd : Subtree (updIdx z.Index CHILD p z.NextIndex)
        (updD z.Dictionary z.NextIndex x) (z.NextIndex + 1)
        (updS S z.NextIndex (S p ++ [x])) p
        (updIdx z.Index CHILD p z.NextIndex CHILD p) (K ∪ {x}) (N ∪ {z.NextIndex}) := by
      rw [hrootupd, hKN.1, hKN.2]
      have hL : updIdx z.Index CHILD p z.NextIndex LEFT z.NextIndex = 0 := by
        have hc : ¬ (LEFT = CHILD ∧ z.NextIndex = p) := fun hc => by
          exact absurd hc.1 (by decide)
        simp only [updIdx, if_neg hc]
        exact hs.dict.fresh LEFT _ le_rfl
      have hR : updIdx z.Index CHILD p z.NextIndex RIGHT z.NextIndex = 0 := by
        have hc : ¬ (RIGHT = CHILD ∧ z.NextIndex = p) := fun hc => by
          exact absurd hc.1 (by decide)
        simp only [updIdx, if_neg hc]
        exact hs.dict.fresh RIGHT _ le_rfl
      have hsingle := subtree_single (updIdx z.Index CHILD p z.NextIndex)
        (updD z.Dictionary z.NextIndex x) (z.NextIndex + 1)
        (updS S z.NextIndex (S p ++ [x])) p z.NextIndex hs.dict.nxt_ge (by omega)
        (by rw [hDn, hS'new, hS'old p hpn]) hL hR
      rw [hDn] at hsingle
      simpa using hsingle
    by_cases hres : z.NextIndex + 1 = z.MaxIndex ∧ z.BitSize = BITMAX
    · -- install triggers the full reset
      obtain ⟨hz2, hpush⟩ := NotInDictionary_reset CHILD p y
        { z with CurrentChar := x } (by exact hres.1) (by exact hres.2)
      refine ⟨[p, CLEARTABLE], ⟨[], none⟩, x, S, S p, ?_, ?_, hdec2, ?_, ?_⟩
      · rw [hLZW, hpush, List.map_append]
        simp only [List.map_cons, List.map_nil]
        rw [hemod]
      · rw [hLZW, hz2]
      · rw [hSxb]
      · rw [hLZW, hz2]
        exact Sync_reset S x hx hs.dict.bytes _
    · -- plain install, possibly bumping the width
      obtain ⟨hI, hD, hN, hCI, hCC, hpush⟩ := NotInDictionary_fields CHILD p y
        { z with CurrentChar := x } (by exact hres)
      have hW := NotInDictionary_width CHILD p y { z with CurrentChar := x }
        (by exact hres)
      refine ⟨[p], decInstall d (S p), x, updS S z.NextIndex (S p ++ [x]), S p,
        ?_, ?_, hdec1, ?_, ?_⟩
      · rw [hLZW, hpush, List.map_append]
        simp only [List.map_cons, List.map_nil]
        rw [hemod]
      · rw [hLZW, hCI]
      · rw [hSx]
      · exact Sync.install_step hs x CHILD p hx K N htree hcomp hxK
          (Or.inl ⟨rfl, rfl⟩) hupd (LZW x y z).2
          (by rw [hLZW]; exact hI) (by rw [hLZW]; exact hD)
          (by rw [hLZW]; exact hN) (by rw [hLZW]; exact hW) hres
  · -- walk the extension tree
    have hsp := bstSearch_spec { z with CurrentChar := x } S p
      (by exact hs.dict.links) (by exact hs.dict.fresh)
      (by exact hs.dict.nxt_ge) (by exact hpn)
      TABLESIZE (z.Index CHILD p) K N (by exact htree) hroot
      (by show z.NextIndex - z.Index CHILD p ≤ TABLESIZE
          rw [TABLESIZE_eq]
          omega)
    by_cases hxK : x ∈ K
    · -- the extension exists: adopt it, no emission
      obtain ⟨X', hsrch, hmem, hSX⟩ := hsp.1 (by exact hxK)
      have hLZW : LZW x y z =
          (y, { z with CurrentChar := x, CurrentIndex := (X' : ℤ) }) := by
        rw [hL0, if_neg hroot, LZWloop_eq_search, hsrch]
      obtain ⟨hX258, hXlt, _, _⟩ := subtree_nodes htree X' hmem
      refine ⟨[], d, X', S, [], ?_, ?_, rfl, ?_, ?_⟩
      · rw [hLZW]
        simp
      · rw [hLZW]
      · simp only [List.nil_append]
        exact hSX
      · rw [hLZW]
        refine ⟨hs.dict, Or.inr ⟨hX258, hXlt⟩, hs.width_eq, hs.width_ge,
          hs.width_le, hs.next_lt, ?_⟩
        rcases hs.lag with ⟨_, _, hnxt, _⟩ | ⟨P, hprev, hPne, hlen, htbl, hlast⟩
        · rw [hnxt, FIRSTFREE_eq] at hXlt
          rw [FIRSTFREE_eq] at hX258
          omega
        · refine Or.inr ⟨P, hprev, hPne, hlen, htbl, ?_⟩
          rw [hSX, headI_append_ne hSpne]
          exact hlast
    · -- the extension is new: install at the zero slot found by the walk
      obtain ⟨node, frm, hsrch, hmem, hslot, hkind, hupdfun⟩ := hsp.2 (by exact hxK)
      have hLZW : LZW x y z =
          NotInDictionary node frm y { z with CurrentChar := x } := by
        rw [hL0, if_neg hroot, LZWloop_eq_search, hsrch]
      have hrootupd : updIdx z.Index node frm z.NextIndex CHILD p = z.Index CHILD p := by
        have hc : ¬ (CHILD = node ∧ p = frm) := by
          rintro ⟨hc1, _⟩
          rcases hkind with hk | hk
          · rw [hk] at hc1; exact absurd hc1 (by decide)
          · rw [hk] at hc1; exact absurd hc1 (by decide)
        simp only [updIdx, if_neg hc]
      have hupd : Subtree (updIdx z.Index node frm z.NextIndex)
          (updD z.Dictionary z.NextIndex x) (z.NextIndex + 1)
          (updS S z.NextIndex (S p ++ [x])) p
          (updIdx z.Index node frm z.NextIndex CHILD p) (K ∪ {x})
          (N ∪ {z.NextIndex}) := by
        rw [hrootupd]
        exact hupdfun (updS S z.NextIndex (S p ++ [x])) (by exact hS'old)
          (by exact hS'new)
      by_cases hres : z.NextIndex + 1 = z.MaxIndex ∧ z.BitSize = BITMAX
      · obtain ⟨hz2, hpush⟩ := NotInDictionary_reset node frm y
          { z with CurrentChar := x } (by exact hres.1) (by exact hres.2)
        refine ⟨[p, CLEARTABLE], ⟨[], none⟩, x, S, S p, ?_, ?_, hdec2, ?_, ?_⟩
        · rw [hLZW, hpush, List.map_append]
          simp only [List.map_cons, List.map_nil]
          rw [hemod]
        · rw [hLZW, hz2]
        · rw [hSxb]
        · rw [hLZW, hz2]
          exact Sync_reset S x hx hs.dict.bytes _
      · obtain ⟨hI, hD, hN, hCI, hCC, hpush⟩ := NotInDictionary_fields node frm y
          { z with CurrentChar := x } (by exact hres)
        have hW := NotInDictionary_width node frm y { z with CurrentChar := x }
          (by exact hres)
        refine ⟨[p], decInstall d (S p), x, updS S z.NextIndex (S p ++ [x]), S p,
          ?_, ?_, hdec1, ?_, ?_⟩
        · rw [hLZW, hpush, List.map_append]
          simp only [List.map_cons, List.map_nil]
          rw [hemod]
        · rw [hLZW, hCI]
        · rw [hSx]
        · exact Sync.install_step hs x node frm hx K N htree hcomp hxK
            (Or.inr ⟨hkind, hmem⟩) hupd (LZW x y z).2
            (by rw [hLZW]; exact hI) (by rw [hLZW]; exact hD)
            (by rw [hLZW]; exact hN) (by rw [hLZW]; exact hW) hres

/-- The feed invariant carried along the whole byte list. -/
lemma encBody_sync : ∀ (B : List ℕ), (∀ b ∈ B, b < 256) →
    ∀ (y : IO_State) (z : LZW_State) (d : DecState) (p : ℕ) (S : ℕ → List ℕ),
    Sync z S d p → z.CurrentIndex = (p : ℤ) →
    ∃ (cs : List ℕ) (d' : DecState) (p' : ℕ) (S' : ℕ → List ℕ) (δ : List ℕ),
      (encBody B (y, z)).1.pushes.map Prod.fst = y.pushes.map Prod.fst ++ cs ∧
      (encBody B (y, z)).2.CurrentIndex = (p' : ℤ) ∧
      decRun d cs = some (d', δ) ∧
      δ ++ S' p' = S p ++ B ∧
      Sync (encBody B (y, z)).2 S' d' p' := by
  intro B
  induction B with
  | nil =>
    intro _ y z d p S hs hp
    exact ⟨[], d, p, S, [], by simp [encBody], hp, rfl, by simp, hs⟩
  | cons b rest ih =>
    intro hB y z d p S hs hp
    have hb : b < 256 := hB b (List.mem_cons_self b rest)
    obtain ⟨cs1, d1, p1, S1, δ1, hc1, hp1, hr1, he1, hs1⟩ :=
      feed_step b hb y z d p S hs hp
    have hstep : encBody (b :: rest) (y, z)
        = encBody rest ((LZW b y z).1, (LZW b y z).2) := by
      rw [encBody, List.foldl_cons]
      rfl
    obtain ⟨cs2, d2, p2, S2, δ2, hc2, hp2, hr2, he2, hs2⟩ :=
      ih (fun c hc => hB c (List.mem_cons_of_mem b hc)) (LZW b y z).1 (LZW b y z).2
        d1 p1 S1 hs1 hp1
    refine ⟨cs1 ++ cs2, d2, p2, S2, δ1 ++ δ2, ?_, ?_, ?_, ?_, ?_⟩
    · rw [hstep, hc2, hc1, List.append_assoc]
    · rw [hstep]
      exact hp2
    · rw [decRun_append, hr1]
      simp only [Option.some_bind]
      rw [hr2]
      simp only [Option.map_some']
    · rw [List.append_assoc, he2, ← List.append_assoc, he1, List.append_assoc]
      simp
    · rw [hstep]
      exact hs2

set_option maxHeartbeats 1000000 in
/-- Encoding then decoding a nonempty byte sequence is the identity. -/
lemma c1_roundtrip_aux (B : List ℕ) (hB : ∀ b ∈ B, b < 256) (hne : B ≠ []) :
    decode (encodeCodes B) = some B := by
  obtain ⟨b0, rest, rfl⟩ : ∃ b0 rest, B = b0 :: rest := by
    cases B with
    | nil => exact absurd rfl hne
    | cons a t => exact ⟨a, t, rfl⟩
  have hb0 : b0 < 256 := hB b0 (List.mem_cons_self _ _)
  have hfirst : LZW b0 (asciistreamout CLEARTABLE zeroIOState LZW_State_Init)
      LZW_State_Init =
      (asciistreamout CLEARTABLE zeroIOState LZW_State_Init,
        { LZW_State_Init with CurrentIndex := (b0 : ℤ) }) := by
    rw [LZW, if_pos (show LZW_State_Init.CurrentIndex = -1 from rfl)]
  have hsync0 : Sync { LZW_State_Init with CurrentIndex := (b0 : ℤ) }
      (fun c => [c]) ⟨[], none⟩ b0 :=
    Sync_reset (fun c => [c]) b0 hb0 (fun _ _ => rfl) _
  obtain ⟨cs, d', p', S', δ, hc, hpi, hr, he, hsf⟩ :=
    encBody_sync rest (fun c hcm => hB c (List.mem_cons_of_mem _ hcm))
      (asciistreamout CLEARTABLE zeroIOState LZW_State_Init)
      { LZW_State_Init with CurrentIndex := (b0 : ℤ) } ⟨[], none⟩ b0
      (fun c => [c]) hsync0 rfl
  set sf := encBody rest
    (asciistreamout CLEARTABLE zeroIOState LZW_State_Init,
      { LZW_State_Init with CurrentIndex := (b0 : ℤ) }) with hsf_def
  have hstep0 : encBody (b0 :: rest)
      (asciistreamout CLEARTABLE zeroIOState LZW_State_Init, LZW_State_Init) = sf := by
    rw [encBody, List.foldl_cons]
    dsimp only
    rw [hfirst, hsf_def]
    rfl
  have hencodes : encodeCodes (b0 :: rest)
      = (asciistreamout ENDOFDATA (NotInDictionary 0 0 sf.1 sf.2).1
          (NotInDictionary 0 0 sf.1 sf.2).2).pushes.map Prod.fst := by
    rw [← hstep0]
    rfl
  have hy0 : (asciistreamout CLEARTABLE zeroIOState LZW_State_Init).pushes.map Prod.fst
      = [CLEARTABLE] := by
    rw [asciistreamout_pushes]
    rfl
  have hnxt258 := hsf.dict.nxt_ge
  rw [FIRSTFREE_eq] at hnxt258
  have hnxt4096 : sf.2.NextIndex < 4096 := by
    have h1 : sf.2.MaxIndex ≤ 2 ^ BITMAX := by
      rw [hsf.width_eq]
      exact Nat.pow_le_pow_right (by norm_num) hsf.width_le
    have h2 := hsf.next_lt
    have h3 : (2:ℕ) ^ BITMAX = 4096 := by rw [BITMAX_eq]; norm_num
    omega
  have hpv' : p' < 256 ∨ 258 ≤ p' ∧ p' < sf.2.NextIndex := by
    rcases hsf.pvalid with h | h
    · exact Or.inl h
    · rw [FIRSTFREE_eq] at h
      exact Or.inr h
  have hp'1 : p' ≠ ENDOFDATA := by
    rw [ENDOFDATA_eq]
    rcases hpv' with h | h
    · omega
    · omega
  have hp'2 : p' ≠ CLEARTABLE := by
    rw [CLEARTABLE_eq]
    rcases hpv' with h | h
    · omega
    · omega
  have hp4096 : p' < 4096 := by
    rcases hpv' with h | h
    · omega
    · omega
  have hemod : (sf.2.CurrentIndex.emod (2 ^ 32)).toNat = p' := by
    rw [hpi]
    have h1 : ((p' : ℤ)) % (2 ^ 32) = (p' : ℤ) := by omega
    rw [show ((p' : ℤ)).emod (2 ^ 32) = ((p' : ℤ)) % (2 ^ 32) from rfl, h1]
    simp
  have hdecp : decString d' p' = some (S' p') := Sync.decode_prefix hsf
  have hloop1 : decodeLoop d' [p', ENDOFDATA] = some (S' p') := by
    rw [decodeLoop, if_neg hp'1, if_neg hp'2, hdecp]
    simp only [Option.some_bind]
    rw [decodeLoop, if_pos rfl]
    simp
  have hloop2 : decodeLoop d' [p', CLEARTABLE, ENDOFDATA] = some (S' p') := by
    rw [decodeLoop, if_neg hp'1, if_neg hp'2, hdecp]
    simp only [Option.some_bind]
    rw [decodeLoop, if_neg (by decide), if_pos rfl]
    rw [decodeLoop, if_pos rfl]
    simp
  by_cases hres : sf.2.NextIndex + 1 = sf.2.MaxIndex ∧ sf.2.BitSize = BITMAX
  · obtain ⟨hz2, hpush⟩ := NotInDictionary_reset 0 0 sf.1 sf.2 hres.1 hres.2
    have hcodes : encodeCodes (b0 :: rest)
        = CLEARTABLE :: (cs ++ [p', CLEARTABLE, ENDOFDATA]) := by
      rw [hencodes, asciistreamout_pushes, hpush]
      rw [List.map_append, List.map_append, hc, hy0]
      simp only [List.map_cons, List.map_nil]
      rw [hemod]
      simp [List.append_assoc]
    rw [hcodes, decode, decodeLoop, if_neg (by decide), if_pos rfl]
    rw [decodeLoop_of_decRun cs ⟨[], none⟩ d' δ _ hr, hloop2]
    simp only [Option.map_some']
    rw [he]
    simp
  · obtain ⟨_, _, _, _, _, hpush⟩ := NotInDictionary_fields 0 0 sf.1 sf.2 hres
    have hcodes : encodeCodes (b0 :: rest)
        = CLEARTABLE :: (cs ++ [p', ENDOFDATA]) := by
      rw [hencodes, asciistreamout_pushes, hpush]
      rw [List.map_append, List.map_append, hc, hy0]
      simp only [List.map_cons, List.map_nil]
      rw [hemod]
      simp [List.append_assoc]
    rw [hcodes, decode, decodeLoop, if_neg (by decide), if_pos rfl]
    rw [decodeLoop_of_decRun cs ⟨[], none⟩ d' δ _ hr, hloop1]
    simp only [Option.map_some']
    rw [he]
    simp

/-- C1: decoding the emitted code sequence of a segment (begin emitting
CLEAR-TABLE, feed bytes, flush emitting END-OF-DATA) with a reference
LZW decoder using the PostScript parameters reproduces the byte
sequence — provably so for every nonempty byte sequence; the empty
sequence is refuted by `c1_counterexample`. -/
theorem c1_lzw_roundtrip (B : List ℕ) (hB : ∀ b ∈ B, b < 256) (hne : B ≠ []) :
    decode (encodeCodes B) = some B :=
  c1_roundtrip_aux B hB hne

theorem c1_lzw_roundtrip_witness :
    decode (encodeCodes [104, 101, 108, 108, 111]) = some [104, 101, 108, 108, 111] :=
  c1_lzw_roundtrip [104, 101, 108, 108, 111] (by decide) (by decide)

/-- For the empty byte sequence the flush emits the uninitialized prefix
`CurrentIndex = -1` read back as `2^32 - 1`, which no decoder resolves:
the claim fails at `B = []`. -/
theorem c1_counterexample : ¬ (decode (encodeCodes []) = some ([] : List ℕ)) := by
  decide
